import Mathlib

/-!
Verification of upload3r: key naming, tree walk, worker pool and fail-fast
policy.

A shallow embedding of `upload3r.go`.  Go strings are lists of characters;
the Go standard library calls the program makes (`strings.Replace`,
`filepath.Clean/Dir/Base/Abs`, `filepath.Walk`, `os.Stat`, `log.Fatal`,
channels and `sync.WaitGroup`) are given small executable models next to the
program's own functions.
-/

namespace Upload3r

/-- Go `string`, as the sequence of its characters. -/
abbrev Str := List Char

/-! ## `strings.Replace(s, old, new, -1)` -/

/-- Scan of `strings.Replace` for a non-empty `old`: `skip` counts the
characters of the current match that are still to be dropped.  Matches are
taken leftmost first and never overlap. -/
def replaceFrom (old new : Str) : Nat → Str → Str
  | _, [] => []
  | skip + 1, _ :: t => replaceFrom old new skip t
  | 0, c :: t =>
      if old.isPrefixOf (c :: t) then new ++ replaceFrom old new (old.length - 1) t
      else c :: replaceFrom old new 0 t

/-- Go `strings.Replace(s, old, new, -1)`: every non-overlapping occurrence of
`old` in `s` is replaced by `new`; an empty `old` matches before every
character and at the end. -/
def Replace (s old new : Str) : Str :=
  if old = [] then new ++ s.flatMap (fun c => c :: new)
  else replaceFrom old new 0 s

/-! ## `path/filepath` on a Unix target -/

/-- The elements of a path between its `/` separators (empty ones included). -/
def splitSlash : Str → List Str
  | [] => [[]]
  | c :: t =>
      if c = '/' then [] :: splitSlash t
      else
        match splitSlash t with
        | [] => [[c]]
        | seg :: rest => (c :: seg) :: rest

/-- One element of `filepath.Clean`'s loop; `out` is the output so far, last
element first.  Empty and `.` elements are dropped, `..` removes the last real
element (or is kept on a relative path that cannot backtrack). -/
def cleanStep (rooted : Bool) (out : List Str) (elem : Str) : List Str :=
  if elem = [] ∨ elem = ['.'] then out
  else if elem = ['.', '.'] then
    match out with
    | [] => if rooted then [] else [elem]
    | top :: rest => if top = ['.', '.'] then elem :: out else rest
  else elem :: out

/-- Go `filepath.Clean`. -/
def Clean (path : Str) : Str :=
  if path = [] then ['.']
  else
    let rooted : Bool := path.head? = some '/'
    let out := (splitSlash path).foldl (cleanStep rooted) []
    let body := ['/'].intercalate out.reverse
    if rooted then '/' :: body
    else if body = [] then ['.'] else body

/-- Go `filepath.Dir`: everything up to the last separator, cleaned. -/
def Dir (path : Str) : Str :=
  Clean (path.reverse.dropWhile (fun c => c != '/')).reverse

/-- Go `filepath.Base`: the last element of the path, trailing separators
removed first. -/
def Base (path : Str) : Str :=
  if path = [] then ['.']
  else
    let p := path.reverse.dropWhile (fun c => c == '/')
    let e := (p.takeWhile (fun c => c != '/')).reverse
    if e = [] then ['/'] else e

/-- Go `filepath.Join(path, name)`: the elements from the first non-empty one
on, joined by `/` and cleaned. -/
def Join (path name : Str) : Str :=
  if path ≠ [] then Clean (path ++ '/' :: name)
  else if name ≠ [] then Clean name
  else []

/-- Go `filepath.Abs` with its error dropped, as `uploadDirToS3` does:
`getwd` is the outcome of `os.Getwd`. -/
def Abs (getwd : Except Str Str) (path : Str) : Str :=
  if path.head? = some '/' then Clean path
  else
    match getwd with
    | .error _ => []
    | .ok wd => Clean (wd ++ '/' :: path)

/-! ## Data model -/

/-- The `s3payload` struct. -/
structure s3payload where
  concurrency : Int
  endpoint : Str
  region : Str
  keyId : Str
  secret : Str
  permissions : Str
  source : Str
  bucket : Str
  bucketPrefix : Str
  deriving DecidableEq, Repr

/-- The `s3.PutObjectInput` the program fills in; `Body` is the opened file,
named by its path. -/
structure PutObjectInput where
  Bucket : Str
  Key : Str
  Body : Str
  ACL : Str
  deriving DecidableEq, Repr

/-- What `isDirectory` can tell about `fd.Mode()`. -/
inductive FileMode where
  | dir
  | regular
  | other
  deriving DecidableEq, Repr

/-- The outside world of one run: the file system as `os.Stat`, `os.Getwd`
and `os.Open` see it, and the object store client.  An error is `some msg`
(`.error msg` for `Stat` and `Getwd`), `nil` is `none`.  `maxChan` is the
largest buffer `make(chan bool, n)` can allocate on the machine. -/
structure World where
  stat : Str → Except Str FileMode
  getwd : Except Str Str
  openFile : Str → Option Str
  newSession : Str → Str → Str → Str → Option Str
  putObject : PutObjectInput → Option Str
  maxChan : Nat

/-- Process termination by `log.Fatal`: the logged message and the status
passed to `os.Exit`. -/
structure Fatal where
  msg : Str
  status : Int
  deriving DecidableEq, Repr

/-- An observable effect of the run. -/
inductive Event where
  | log (line : Str)
  | put (input : PutObjectInput)
  deriving DecidableEq, Repr

/-! ## The sequential functions of `upload3r.go` -/

/-- Go `log.Fatal(err)`: print the message, then `os.Exit(1)`. -/
def logFatal (err : Str) : Fatal :=
  { msg := err, status := 1 }

/-- The function `checkErr`: a non-nil error ends the process inside `log.Fatal`, so
the `os.Exit(-666)` after it is never reached. -/
def checkErr (err : Option Str) : Except Fatal Unit :=
  match err with
  | none => .ok ()
  | some e => .error (logFatal e)

/-- The function `isDirectory`: `os.Stat`, `checkErr`, then the switch on the mode. -/
def isDirectory (w : World) (path : Str) : Except Fatal Bool :=
  match w.stat path with
  | .error e => .error (logFatal e)
  | .ok mode =>
      match mode with
      | .dir => .ok true
      | .regular => .ok false
      | .other => .ok false

/-- The object key of `uploadFileToS3` (lines 110-111). -/
def fileKey (payload : s3payload) : Str :=
  payload.bucketPrefix ++ "/".toList ++ Base payload.source

/-- The `PutObjectInput` of `uploadFileToS3` (lines 119-124). -/
def putInput (payload : s3payload) : PutObjectInput :=
  { Bucket := payload.bucket
    Key := fileKey payload
    Body := payload.source
    ACL := payload.permissions }

/-- The log line of `uploadFileToS3` (line 112). -/
def uploadLine (payload : s3payload) : Str :=
  "Upload ".toList ++ payload.source ++ " to ".toList ++ payload.bucket ++ "/".toList
    ++ fileKey payload

/-- The function `uploadFileToS3`: the effects it has and how it ends. -/
def uploadFileToS3 (w : World) (payload : s3payload) : List Event × Except Fatal Unit :=
  let line := Event.log (uploadLine payload)
  match checkErr (w.newSession payload.endpoint payload.region payload.keyId payload.secret) with
  | .error f => ([line], .error f)
  | .ok _ =>
      match checkErr (w.openFile payload.source) with
      | .error f => ([line], .error f)
      | .ok _ =>
          match checkErr (w.putObject (putInput payload)) with
          | .error f => ([line, .put (putInput payload)], .error f)
          | .ok _ => ([line, .put (putInput payload)], .ok ())

/-- The first log line of `main` (line 52). -/
def startLine : Str := "AWS S3 Uploader started!".toList

/-- The completion line of `main` (line 60). -/
def finishLine : Str := "AWS S3 Uploader finished successfully!".toList

/-- The function `main` after flag parsing.  `uploadDir` stands for one complete execution
of `uploadDirToS3` (its effects and how it ended); the single-file branch is
`uploadFileToS3` itself. -/
def main (w : World) (payload : s3payload)
    (uploadDir : s3payload → List Event × Except Fatal Unit) :
    List Event × Except Fatal Unit :=
  match isDirectory w payload.source with
  | .error f => ([.log startLine], .error f)
  | .ok d =>
      let r := if d then uploadDir payload else uploadFileToS3 w payload
      match r.2 with
      | .error f => (.log startLine :: r.1, .error f)
      | .ok _ => (.log startLine :: r.1 ++ [.log finishLine], .ok ())

/-! ## Directory mode: the walk -/

/-- A directory tree as `filepath.Walk` meets it: an entry is a directory, with
the outcome of reading it (`readErr`, `none` when the read succeeds) and the
entries it holds (name and entry, in listing order), or anything else.  What
kind an entry has is asked from `World.stat` by path, as the walk callback
does. -/
inductive Node where
  | leaf : Node
  | dir (readErr : Option Str) (entries : List (Str × Node)) : Node

/-- The callback handed to `filepath.Walk` (lines 66-73): a path that
`isDirectory` accepts is skipped, any other path is appended to `files`.  The
callback looks at neither `info` nor `err`, and returns `nil`. -/
def walkFn (w : World) (files : List Str) (path : Str) (_err : Option Str) :
    Except Fatal (List Str) :=
  match isDirectory w path with
  | .error f => .error f
  | .ok true => .ok files
  | .ok false => .ok (files ++ [path])

mutual
/-- Go `filepath.Walk` running `walkFn`.  On a directory the names are read
first and the callback gets the error of that read; as the callback returns
`nil`, a directory that cannot be read is left behind without its entries and
the walk goes on, and one that can be read has its entries walked in listing
order, each under `Join path name`. -/
def walk (w : World) (files : List Str) (path : Str) : Node → Except Fatal (List Str)
  | .leaf => walkFn w files path none
  | .dir readErr entries =>
      match walkFn w files path readErr with
      | .error f => .error f
      | .ok files1 =>
          match readErr with
          | some _ => .ok files1
          | none => walkEntries w files1 path entries
/-- The loop of `filepath.Walk` over the names of one directory. -/
def walkEntries (w : World) (files : List Str) (path : Str) :
    List (Str × Node) → Except Fatal (List Str)
  | [] => .ok files
  | (name, child) :: rest =>
      match walk w files (Join path name) child with
      | .error f => .error f
      | .ok files1 => walkEntries w files1 path rest
end

/-! ## Directory mode: per-file payload -/

/-- The per-file prefix of `uploadDirToS3` (lines 79-81). -/
def jobPrefix (payload : s3payload) (dirPath file : Str) : Str :=
  Replace (payload.bucketPrefix ++ Replace (Dir file) dirPath []) ['\\'] ['/']

/-- The `filePayload` literal built by a worker (lines 88-97); the field
`concurrency` is not set there and so has Go's zero value. -/
def filePayload (payload : s3payload) (dirPath file : Str) : s3payload :=
  { concurrency := 0
    endpoint := payload.endpoint
    region := payload.region
    keyId := payload.keyId
    secret := payload.secret
    permissions := payload.permissions
    source := file
    bucket := payload.bucket
    bucketPrefix := jobPrefix payload dirPath file }

/-- How the upload of one worker ends (line 98). -/
def worker (w : World) (payload : s3payload) (dirPath file : Str) : Except Fatal Unit :=
  (uploadFileToS3 w (filePayload payload dirPath file)).2

/-! ## Directory mode: the scheduler of `uploadDirToS3` (lines 76-106) -/

/-- Where the goroutine running `uploadDirToS3` stands. -/
inductive Pc (α : Type) where
  | loop
  | acquire (file : α)
  | spawn (file : α)
  | drain (i : Nat)
  | wait
  | returned
  deriving DecidableEq, Repr

/-- The state of the scheduler.  `todo` are the files the range loop has not
reached, `sem` the number of values buffered in the channel, `wg` the
`WaitGroup` counter.  A worker is in `uploading` while its `uploadFileToS3`
call runs, in `finishing` until its deferred `wg.Done()` has run, in
`releasing` until its deferred `<-sem` has run, and in `exited` afterwards.
`halted` is the exit status once the process has been terminated. -/
structure Sched (α : Type) where
  pc : Pc α
  todo : List α
  sem : Nat
  wg : Int
  uploading : List α
  finishing : List α
  releasing : List α
  exited : List α
  halted : Option Int
  deriving DecidableEq, Repr

/-- One atomic step of one goroutine. -/
inductive Action where
  | next
  | endLoop
  | send
  | handoff (i : Nat)
  | go
  | upload (i : Nat)
  | wgDone (i : Nat)
  | recv (i : Nat)
  | drainSend
  | drainEnd
  | waitDone
  deriving DecidableEq, Repr

/-- The state at line 78, with the walked `files`, an empty channel and a zero
`WaitGroup`. -/
def init {α : Type} (files : List α) : Sched α :=
  { pc := .loop, todo := files, sem := 0, wg := 0, uploading := [], finishing := [],
    releasing := [], exited := [], halted := none }

/-- The steps of `uploadDirToS3` and its workers, for a channel of capacity
`cap`; `run file` is how the upload of `file` ends.

* `next`: the range loop takes the next file and runs `wg.Add(1)` (lines 78-83);
  `endLoop`: the range is exhausted.
* `send`: `sem <- true` (line 84) into free buffer space; `handoff i`: the same
  send on an unbuffered channel, met by worker `i` waiting in `<-sem`.
* `go`: the `go` statement (line 85) starts the worker.
* `upload i`: the `uploadFileToS3` call of worker `i` of `uploading` ends; a
  failure terminates the process with the status of `log.Fatal`.
* `wgDone i`, `recv i`: the deferred `wg.Done()` and `<-sem` (lines 86-87, run
  in reverse order); a negative `WaitGroup` counter panics (status 2).
* `drainSend`, `drainEnd`: the loop of lines 102-104; `waitDone`: `wg.Wait()`
  returns when the counter is zero. -/
def step {α : Type} (cap : Nat) (run : α → Except Fatal Unit) (s : Sched α) :
    Action → Option (Sched α)
  | .next =>
      match s.halted, s.pc, s.todo with
      | none, .loop, file :: rest => some { s with pc := .acquire file, todo := rest, wg := s.wg + 1 }
      | _, _, _ => none
  | .endLoop =>
      match s.halted, s.pc, s.todo with
      | none, .loop, [] => some { s with pc := .drain 0 }
      | _, _, _ => none
  | .send =>
      match s.halted, s.pc with
      | none, .acquire file =>
          if s.sem < cap then some { s with pc := .spawn file, sem := s.sem + 1 } else none
      | _, _ => none
  | .handoff i =>
      match s.halted, s.pc, s.releasing[i]? with
      | none, .acquire file, some job =>
          if cap = 0 then
            some { s with pc := .spawn file, releasing := s.releasing.eraseIdx i,
                          exited := job :: s.exited }
          else none
      | _, _, _ => none
  | .go =>
      match s.halted, s.pc with
      | none, .spawn file => some { s with pc := .loop, uploading := file :: s.uploading }
      | _, _ => none
  | .upload i =>
      match s.halted, s.uploading[i]? with
      | none, some job =>
          match run job with
          | .error f => some { s with halted := some f.status }
          | .ok _ =>
              some { s with uploading := s.uploading.eraseIdx i, finishing := job :: s.finishing }
      | _, _ => none
  | .wgDone i =>
      match s.halted, s.finishing[i]? with
      | none, some job =>
          if s.wg - 1 < 0 then some { s with halted := some 2 }
          else
            some { s with wg := s.wg - 1, finishing := s.finishing.eraseIdx i,
                          releasing := job :: s.releasing }
      | _, _ => none
  | .recv i =>
      match s.halted, s.releasing[i]? with
      | none, some job =>
          if 0 < s.sem then
            some { s with sem := s.sem - 1, releasing := s.releasing.eraseIdx i,
                          exited := job :: s.exited }
          else none
      | _, _ => none
  | .drainSend =>
      match s.halted, s.pc with
      | none, .drain i =>
          if i < cap ∧ s.sem < cap then some { s with pc := .drain (i + 1), sem := s.sem + 1 }
          else none
      | _, _ => none
  | .drainEnd =>
      match s.halted, s.pc with
      | none, .drain i => if i < cap then none else some { s with pc := .wait }
      | _, _ => none
  | .waitDone =>
      match s.halted, s.pc with
      | none, .wait => if s.wg = 0 then some { s with pc := .returned } else none
      | _, _ => none

/-- The state after a sequence of steps, if each of them is enabled. -/
def runActions {α : Type} (cap : Nat) (run : α → Except Fatal Unit) :
    Sched α → List Action → Option (Sched α)
  | s, [] => some s
  | s, a :: rest =>
      match step cap run s a with
      | none => none
      | some s1 => runActions cap run s1 rest

/-- The states some interleaving of the goroutines leads to from `init files`. -/
def Reachable {α : Type} (cap : Nat) (run : α → Except Fatal Unit) (files : List α)
    (s : Sched α) : Prop :=
  ∃ acts : List Action, runActions cap run (init files) acts = some s

/-- The function `uploadDirToS3` up to line 77: the walk of the tree at `Abs source`
(lines 64-74) and `make(chan bool, concurrency)`, which panics on a negative
size and on a size the machine cannot allocate.  The result is the scheduler
state at line 78; from there the function runs by `step` with capacity
`concurrency` and the uploads of `worker`. -/
def uploadDirToS3 (w : World) (tree : Node) (payload : s3payload) :
    Except Fatal (Sched Str) :=
  match walk w [] (Abs w.getwd payload.source) tree with
  | .error f => .error f
  | .ok files =>
      if payload.concurrency < 0 ∨ (w.maxChan : Int) < payload.concurrency then
        .error { msg := "makechan: size out of range".toList, status := 2 }
      else .ok (init files)


/-! ## The invariant of the scheduler -/

/-- Values in the channel that belong to no started worker: the slot taken for
the iteration that stands at its `go` statement, and the values the drain loop
has sent. -/
def pcSlots {α : Type} (cap : Nat) : Pc α → Nat
  | .spawn _ => 1
  | .drain i => i
  | .wait => cap
  | .returned => cap
  | _ => 0

/-- The `wg.Add(1)` of an iteration whose worker is not started yet. -/
def pcAdds {α : Type} : Pc α → Int
  | .acquire _ => 1
  | .spawn _ => 1
  | _ => 0

/-- The file of the iteration the range loop is in. -/
def pcFile {α : Type} : Pc α → List α
  | .acquire file => [file]
  | .spawn file => [file]
  | _ => []

/-- The range loop is over. -/
def pastLoop {α : Type} : Pc α → Bool
  | .drain _ => true
  | .wait => true
  | .returned => true
  | _ => false

/-- The invariant of the scheduler: the channel never holds more than `cap`
values, each of them belongs to a worker that has not yet run its `<-sem` or is
counted by `pcSlots`; the `WaitGroup` counter counts the workers that have not
yet run `wg.Done()` and the iteration in progress; every walked file is in
exactly one place; past the range loop no file is left; a worker past its
upload had a successful upload; and the process is alive in the returned
state. -/
structure Inv {α : Type} (cap : Nat) (run : α → Except Fatal Unit) (files : List α)
    (s : Sched α) : Prop where
  sem_le : s.sem ≤ cap
  sem_eq : s.sem = s.uploading.length + s.finishing.length + s.releasing.length + pcSlots cap s.pc
  wg_eq : s.wg = (s.uploading.length : Int) + s.finishing.length + pcAdds s.pc
  perm : (↑s.todo + ↑(pcFile s.pc) + ↑s.uploading + ↑s.finishing + ↑s.releasing + ↑s.exited
      : Multiset α) = ↑files
  past : pastLoop s.pc = true → s.todo = []
  ran : ∀ job, job ∈ s.finishing ∨ job ∈ s.releasing ∨ job ∈ s.exited → run job = .ok ()
  live : s.pc = .returned → s.halted = none

/-- The state in which the scheduler sits at `sem <- true` for the first file,
no worker started. -/
def blocked {α : Type} (file : α) (rest : List α) : Sched α :=
  { init rest with pc := .acquire file, wg := 1 }

/-! ## Trees the walk is specified on -/

/-- `EntryAt path node q n`: in the tree `node` lying at `path`, the entry `n`
lies at the path `q`, whether or not the directories above it can be read. -/
inductive EntryAt : Str → Node → Str → Node → Prop where
  | here (path : Str) (node : Node) : EntryAt path node path node
  | inside (path : Str) (readErr : Option Str) (entries : List (Str × Node)) (name : Str)
      (child : Node) (q : Str) (n : Node) : (name, child) ∈ entries →
      EntryAt (Join path name) child q n → EntryAt path (.dir readErr entries) q n

mutual
/-- Every `os.Stat` on an entry of the tree succeeds, and reports a directory
where the tree has one. -/
def statsOk (w : World) (path : Str) : Node → Bool
  | .leaf =>
      match w.stat path with
      | .ok _ => true
      | .error _ => false
  | .dir _ entries =>
      match w.stat path with
      | .ok .dir => entriesStatsOk w path entries
      | _ => false
/-- The same for the entries of the directory at `path`. -/
def entriesStatsOk (w : World) (path : Str) : List (Str × Node) → Bool
  | [] => true
  | (name, child) :: rest => statsOk w (Join path name) child && entriesStatsOk w path rest
end

/-- A name a directory entry can have: not empty, without `/`, and neither `.`
nor `..`. -/
def properName (name : Str) : Bool :=
  decide (name ≠ [] ∧ '/' ∉ name ∧ name ≠ ['.'] ∧ name ≠ ['.', '.'])

mutual
/-- The names in every directory of the tree are names of directory entries,
and no name occurs twice in one directory. -/
def namesOk : Node → Bool
  | .leaf => true
  | .dir _ entries => entriesNamesOk entries
/-- The same for one listing. -/
def entriesNamesOk : List (Str × Node) → Bool
  | [] => true
  | (name, child) :: rest =>
      properName name && decide (name ∉ rest.map Prod.fst) && namesOk child
        && entriesNamesOk rest
end

mutual
/-- Every directory of the tree can be read. -/
def listable : Node → Bool
  | .leaf => true
  | .dir readErr entries => readErr.isNone && entriesListable entries
/-- The same for one listing. -/
def entriesListable : List (Str × Node) → Bool
  | [] => true
  | (_, child) :: rest => listable child && entriesListable rest
end

/-- The absolute path with the elements `segs`. -/
def absPath (segs : List Str) : Str :=
  '/' :: ['/'].intercalate segs

/-- The tree of the directory `/data` holding `a.txt` and `sub/b.txt`. -/
def demoTree : Node :=
  .dir none [("a.txt".toList, .leaf), ("sub".toList, .dir none [("b.txt".toList, .leaf)])]

/-- The tree of a directory `/data` holding `a.txt` and the directory `secret`,
which holds `f.txt` and may be searched but not read. -/
def secretTree : Node :=
  .dir none [("a.txt".toList, .leaf),
    ("secret".toList, .dir (some "permission denied".toList) [("f.txt".toList, .leaf)])]

/-- The schedule that uploads `n` files one after the other: each worker runs
to its end before the next file is taken; then the loop ends, the drain loop
sends `cap` values and `wg.Wait()` returns. -/
def sequentialSchedule (cap n : Nat) : List Action :=
  (List.replicate n [Action.next, .send, .go, .upload 0, .wgDone 0, .recv 0]).flatten
    ++ (.endLoop :: List.replicate cap .drainSend ++ [.drainEnd, .waitDone])

/-- The scheduler between two iterations of `sequentialSchedule`. -/
def idle {α : Type} (todo done : List α) : Sched α :=
  { init todo with exited := done }

/-! ## Concrete inputs -/

/-- A world in which every call succeeds: `/data` and `/data/sub` are
directories, every other path is a regular file. -/
def demoWorld : World :=
  { stat := fun p =>
      if p = "/data".toList ∨ p = "/data/sub".toList then .ok .dir else .ok .regular
    getwd := .ok "/home".toList
    openFile := fun _ => none
    newSession := fun _ _ _ _ => none
    putObject := fun _ => none
    maxChan := 281474976710560 }

/-- As `demoWorld`, with the directories `/data` and `/data/secret`. -/
def secretWorld : World :=
  { demoWorld with
    stat := fun p =>
      if p = "/data".toList ∨ p = "/data/secret".toList then .ok .dir else .ok .regular }

/-- A run configuration with the default endpoint, region and permissions, a
key pair, source `src`, bucket `b` and the given bucket prefix. -/
def demoPayload (src pre : Str) (n : Int) : s3payload :=
  { concurrency := n
    endpoint := "https://hb.bizmrg.com".toList
    region := "ru-msk".toList
    keyId := "key-id".toList
    secret := "secret-key".toList
    permissions := "private".toList
    source := src
    bucket := "b".toList
    bucketPrefix := pre }

/-- Five files of the directory `/data`. -/
def fiveFiles : List Str :=
  ["/data/1".toList, "/data/2".toList, "/data/3".toList, "/data/4".toList, "/data/5".toList]

/-- The uploads of `fiveFiles` under `demoWorld`. -/
def fiveRun : Str → Except Fatal Unit :=
  worker demoWorld (demoPayload "/data".toList "x".toList 2) "/data".toList

/-- A complete schedule for five files and two slots: two uploads run side by
side, each later file is dispatched when a slot is free, then the drain loop
and `wg.Wait()`. -/
def fiveSchedule : List Action :=
  [.next, .send, .go, .next, .send, .go,
   .upload 1, .wgDone 0, .recv 0, .next, .send, .go,
   .upload 1, .wgDone 0, .recv 0, .next, .send, .go,
   .upload 0, .upload 0, .wgDone 1, .wgDone 0, .recv 0, .next, .send, .go,
   .recv 0, .upload 0, .endLoop, .drainSend, .wgDone 0, .recv 0, .drainSend,
   .drainEnd, .waitDone]

/-- The state `fiveSchedule` ends in: `uploadDirToS3` has returned, the channel
holds the two values of the drain loop, all five workers have exited. -/
def fiveDone : Sched Str :=
  { init [] with pc := .returned, sem := 2, exited := fiveFiles.reverse }

/-- The state after the first six steps of `fiveSchedule`: two workers are
uploading, three files are left. -/
def twoRunning : Sched Str :=
  { init (fiveFiles.drop 2) with
    sem := 2, wg := 2, uploading := ["/data/2".toList, "/data/1".toList] }

/-- As `demoWorld`, but `/data/3` cannot be opened. -/
def failWorld : World :=
  { demoWorld with
    openFile := fun p => if p = "/data/3".toList then some "permission denied".toList else none }

/-- The uploads of `fiveFiles` under `failWorld`. -/
def failRun : Str → Except Fatal Unit :=
  worker failWorld (demoPayload "/data".toList "x".toList 2) "/data".toList

/-- A state of the run under `failWorld`: `/data/1` has been uploaded, its
worker has exited, and `/data/3` and `/data/2` are being uploaded. -/
def beforeFailure : Sched Str :=
  { init (fiveFiles.drop 3) with
    sem := 2, wg := 2, uploading := ["/data/3".toList, "/data/2".toList],
    exited := ["/data/1".toList] }

/-- The key of directory mode as the specification words it: the root is
removed from `Dir file` only where it is a leading prefix, the bucket prefix is
put in front, separators are normalised and `/` and the base name follow. -/
def specDirKey (bucketPrefix root file : Str) : Str :=
  let dir := Dir file
  let rel := if root.isPrefixOf dir then dir.drop root.length else dir
  Replace (bucketPrefix ++ rel) ['\\'] ['/'] ++ "/".toList ++ Base file

/-- A world in which every path is a special file (a device, say) and every
call succeeds. -/
def deviceWorld : World :=
  { demoWorld with stat := fun _ => .ok .other }

/-- A world in which no path exists. -/
def missingWorld : World :=
  { demoWorld with stat := fun _ => .error "no such file or directory".toList }

/-- A completed directory upload without effects, to put in for `uploadDir`
where `main` does not reach it. -/
def dirStub : s3payload → List Event × Except Fatal Unit :=
  fun _ => ([], .ok ())

/-! # Theorems -/

/-! ## Lists -/

theorem coe_eq_cons_eraseIdx {α : Type} {l : List α} {i : Nat} {a : α} (h : l[i]? = some a) :
    (↑l : Multiset α) = a ::ₘ ↑(l.eraseIdx i) := by
  induction l generalizing i with
  | nil => simp at h
  | cons b t ih =>
    cases i with
    | zero => simp at h; subst h; simp
    | succ i =>
      simp at h
      have := ih h
      simp only [List.eraseIdx_cons_succ, ← Multiset.cons_coe]
      rw [this, Multiset.cons_swap]

theorem length_eraseIdx_add_one {α : Type} {l : List α} {i : Nat} {a : α} (h : l[i]? = some a) :
    (l.eraseIdx i).length + 1 = l.length := by
  have hi : i < l.length := by
    by_contra hc
    rw [List.getElem?_eq_none (by omega)] at h
    simp at h
  rw [List.length_eraseIdx]
  simp [hi]
  omega

theorem mem_of_getElem?_eq {α : Type} {l : List α} {i : Nat} {a : α} (h : l[i]? = some a) :
    a ∈ l := by
  rw [List.getElem?_eq_some_iff] at h
  obtain ⟨hi, rfl⟩ := h
  exact List.getElem_mem _

theorem mem_of_mem_eraseIdx {α : Type} {l : List α} {i : Nat} {a : α} (h : a ∈ l.eraseIdx i) :
    a ∈ l := List.mem_of_mem_eraseIdx h

theorem count_eq_one_of_nodup {α : Type} [BEq α] [LawfulBEq α] {a : α} {l : List α}
    (d : l.Nodup) (h : a ∈ l) : l.count a = 1 := by
  induction l with
  | nil => simp at h
  | cons x t ih =>
    obtain ⟨hx, ht⟩ := List.nodup_cons.mp d
    rw [List.count_cons]
    rcases List.mem_cons.mp h with rfl | hmem
    · simp [List.count_eq_zero_of_not_mem hx]
    · have hne : (x == a) = false := by
        rw [beq_eq_false_iff_ne]
        intro hxa
        exact hx (hxa ▸ hmem)
      simp [hne, ih ht hmem]

theorem init_inv {α : Type} (cap : Nat) (run : α → Except Fatal Unit) (files : List α) :
    Inv cap run files (init files) := by
  constructor <;> simp [init, pcSlots, pcAdds, pcFile, pastLoop]

theorem step_inv {α : Type} {cap : Nat} {run : α → Except Fatal Unit} {files : List α}
    {s s1 : Sched α} {a : Action} (hs : Inv cap run files s) (h : step cap run s a = some s1) :
    Inv cap run files s1 := by
  obtain ⟨h1, h2, h3, h4, h5, h6, h7⟩ := hs
  cases a <;> simp only [step] at h <;> split at h <;> try (simp at h)
  case next.h_1 =>
    rename_i file rest hh hpc htodo
    subst h
    have hperm : (↑rest + ↑(pcFile (Pc.acquire file)) + ↑s.uploading + ↑s.finishing
        + ↑s.releasing + ↑s.exited : Multiset α) = ↑files := by
      rw [← h4, hpc, htodo]
      simp only [pcFile, ← Multiset.cons_coe, ← Multiset.singleton_add, Multiset.coe_nil]
      abel
    clear h4
    constructor <;> first
      | exact hperm
      | simp_all [pcSlots, pcAdds, pcFile, pastLoop]
  case endLoop.h_1 =>
    rename_i hh hpc htodo
    subst h
    have hperm : (↑s.todo + ↑(pcFile (Pc.drain 0 : Pc α)) + ↑s.uploading + ↑s.finishing
        + ↑s.releasing + ↑s.exited : Multiset α) = ↑files := by
      rw [← h4, hpc]
      simp only [pcFile]
    clear h4
    constructor <;> first
      | exact hperm
      | simp_all [pcSlots, pcAdds, pcFile, pastLoop]
  case send.h_1 =>
    rename_i file hh hpc
    obtain ⟨hlt, rfl⟩ := h
    have hperm : (↑s.todo + ↑(pcFile (Pc.spawn file)) + ↑s.uploading + ↑s.finishing
        + ↑s.releasing + ↑s.exited : Multiset α) = ↑files := by
      rw [← h4, hpc]
      simp only [pcFile]
    clear h4
    constructor <;> first
      | exact hperm
      | (simp_all [pcSlots, pcAdds, pcFile, pastLoop] <;> try omega)
  case handoff.h_1 =>
    rename_i i _ _ _ file job hh hpc hrel
    obtain ⟨hcap, rfl⟩ := h
    have hlen := length_eraseIdx_add_one hrel
    have hperm : (↑s.todo + ↑(pcFile (Pc.spawn file)) + ↑s.uploading + ↑s.finishing
        + ↑(s.releasing.eraseIdx i) + ↑(job :: s.exited) : Multiset α) = ↑files := by
      rw [← h4, hpc, coe_eq_cons_eraseIdx hrel]
      simp only [pcFile, ← Multiset.cons_coe, ← Multiset.singleton_add]
      abel
    have hran : ∀ j, j ∈ s.finishing ∨ j ∈ s.releasing.eraseIdx i ∨ j ∈ job :: s.exited →
        run j = .ok () := by
      intro j hj
      rcases hj with hj | hj | hj
      · exact h6 j (Or.inl hj)
      · exact h6 j (Or.inr (Or.inl (mem_of_mem_eraseIdx hj)))
      · rcases List.mem_cons.mp hj with rfl | hj
        · exact h6 j (Or.inr (Or.inl (mem_of_getElem?_eq hrel)))
        · exact h6 j (Or.inr (Or.inr hj))
    clear h4 h6
    constructor <;> first
      | exact hperm
      | exact hran
      | simp_all [pcSlots, pcAdds, pcFile, pastLoop]
  case go.h_1 =>
    rename_i file hh hpc
    subst h
    have hperm : (↑s.todo + ↑(pcFile (Pc.loop : Pc α)) + ↑(file :: s.uploading) + ↑s.finishing
        + ↑s.releasing + ↑s.exited : Multiset α) = ↑files := by
      rw [← h4, hpc]
      simp only [pcFile, ← Multiset.cons_coe, ← Multiset.singleton_add, Multiset.coe_nil]
      abel
    clear h4
    constructor <;> first
      | exact hperm
      | (simp_all [pcSlots, pcAdds, pcFile, pastLoop] <;> try omega)
  case upload.h_1 =>
    rename_i i _ _ job hh hup
    split at h
    · simp at h
      subst h
      have hlen := length_eraseIdx_add_one hup
      have hne : s.pc ≠ .returned := by
        intro hpc
        rw [hpc] at h2
        simp only [pcSlots] at h2
        omega
      constructor <;> first
        | exact h4
        | exact h6
        | simp_all [pcSlots, pcAdds, pcFile, pastLoop]
    · rename_i u hrun
      simp at h
      subst h
      have hlen := length_eraseIdx_add_one hup
      have hperm : (↑s.todo + ↑(pcFile s.pc) + ↑(s.uploading.eraseIdx i) + ↑(job :: s.finishing)
          + ↑s.releasing + ↑s.exited : Multiset α) = ↑files := by
        rw [← h4, coe_eq_cons_eraseIdx hup]
        simp only [← Multiset.cons_coe, ← Multiset.singleton_add]
        abel
      have hran : ∀ j, j ∈ job :: s.finishing ∨ j ∈ s.releasing ∨ j ∈ s.exited →
          run j = .ok () := by
        intro j hj
        rcases hj with hj | hj | hj
        · rcases List.mem_cons.mp hj with rfl | hj
          · exact hrun
          · exact h6 j (Or.inl hj)
        · exact h6 j (Or.inr (Or.inl hj))
        · exact h6 j (Or.inr (Or.inr hj))
      clear h4 h6
      constructor <;> first
      | exact hperm
      | exact hran
      | (simp_all [pcSlots, pcAdds, pcFile, pastLoop] <;> try omega)
  case wgDone.h_1 =>
    rename_i i _ _ job hh hfin
    have hlen := length_eraseIdx_add_one hfin
    split at h
    · simp at h
      subst h
      have hne : s.pc ≠ .returned := by
        intro hpc
        rw [hpc] at h2
        simp only [pcSlots] at h2
        omega
      constructor <;> first
        | exact h4
        | exact h6
        | simp_all [pcSlots, pcAdds, pcFile, pastLoop]
    · simp at h
      subst h
      have hperm : (↑s.todo + ↑(pcFile s.pc) + ↑s.uploading + ↑(s.finishing.eraseIdx i)
          + ↑(job :: s.releasing) + ↑s.exited : Multiset α) = ↑files := by
        rw [← h4, coe_eq_cons_eraseIdx hfin]
        simp only [← Multiset.cons_coe, ← Multiset.singleton_add]
        abel
      have hran : ∀ j, j ∈ s.finishing.eraseIdx i ∨ j ∈ job :: s.releasing ∨ j ∈ s.exited →
          run j = .ok () := by
        intro j hj
        rcases hj with hj | hj | hj
        · exact h6 j (Or.inl (mem_of_mem_eraseIdx hj))
        · rcases List.mem_cons.mp hj with rfl | hj
          · exact h6 j (Or.inl (mem_of_getElem?_eq hfin))
          · exact h6 j (Or.inr (Or.inl hj))
        · exact h6 j (Or.inr (Or.inr hj))
      clear h4 h6
      constructor <;> first
      | exact hperm
      | exact hran
      | (simp_all [pcSlots, pcAdds, pcFile, pastLoop] <;> try omega)
  case recv.h_1 =>
    rename_i i _ _ job hh hrel
    obtain ⟨hpos, rfl⟩ := h
    have hlen := length_eraseIdx_add_one hrel
    have hperm : (↑s.todo + ↑(pcFile s.pc) + ↑s.uploading + ↑s.finishing
        + ↑(s.releasing.eraseIdx i) + ↑(job :: s.exited) : Multiset α) = ↑files := by
      rw [← h4, coe_eq_cons_eraseIdx hrel]
      simp only [← Multiset.cons_coe, ← Multiset.singleton_add]
      abel
    have hran : ∀ j, j ∈ s.finishing ∨ j ∈ s.releasing.eraseIdx i ∨ j ∈ job :: s.exited →
        run j = .ok () := by
      intro j hj
      rcases hj with hj | hj | hj
      · exact h6 j (Or.inl hj)
      · exact h6 j (Or.inr (Or.inl (mem_of_mem_eraseIdx hj)))
      · rcases List.mem_cons.mp hj with rfl | hj
        · exact h6 j (Or.inr (Or.inl (mem_of_getElem?_eq hrel)))
        · exact h6 j (Or.inr (Or.inr hj))
    clear h4 h6
    constructor <;> first
      | exact hperm
      | exact hran
      | (simp_all [pcSlots, pcAdds, pcFile, pastLoop] <;> try omega)
  case drainSend.h_1 =>
    rename_i i hh hpc
    obtain ⟨⟨hi, hlt⟩, rfl⟩ := h
    have hperm : (↑s.todo + ↑(pcFile (Pc.drain (i + 1) : Pc α)) + ↑s.uploading + ↑s.finishing
        + ↑s.releasing + ↑s.exited : Multiset α) = ↑files := by
      rw [← h4, hpc]
      simp only [pcFile]
    clear h4
    constructor <;> first
      | exact hperm
      | (simp_all [pcSlots, pcAdds, pcFile, pastLoop] <;> try omega)
  case drainEnd.h_1 =>
    rename_i i hh hpc
    obtain ⟨hi, rfl⟩ := h
    have hperm : (↑s.todo + ↑(pcFile (Pc.wait : Pc α)) + ↑s.uploading + ↑s.finishing
        + ↑s.releasing + ↑s.exited : Multiset α) = ↑files := by
      rw [← h4, hpc]
      simp only [pcFile]
    clear h4
    constructor <;> first
      | exact hperm
      | (simp_all [pcSlots, pcAdds, pcFile, pastLoop] <;> try omega)
  case waitDone.h_1 =>
    rename_i hh hpc
    obtain ⟨hwg, rfl⟩ := h
    have hperm : (↑s.todo + ↑(pcFile (Pc.returned : Pc α)) + ↑s.uploading + ↑s.finishing
        + ↑s.releasing + ↑s.exited : Multiset α) = ↑files := by
      rw [← h4, hpc]
      simp only [pcFile]
    clear h4
    constructor <;> first
      | exact hperm
      | simp_all [pcSlots, pcAdds, pcFile, pastLoop]

/-! ## The scheduler -/

theorem runActions_inv {α : Type} {cap : Nat} {run : α → Except Fatal Unit} {files : List α}
    (acts : List Action) :
    ∀ s s1 : Sched α, Inv cap run files s → runActions cap run s acts = some s1 →
      Inv cap run files s1 := by
  induction acts with
  | nil =>
    intro s s1 hs h
    simp only [runActions, Option.some.injEq] at h
    exact h ▸ hs
  | cons a rest ih =>
    intro s s1 hs h
    simp only [runActions] at h
    split at h
    · simp at h
    · rename_i s2 hstep
      exact ih s2 s1 (step_inv hs hstep) h

theorem reachable_inv {α : Type} {cap : Nat} {run : α → Except Fatal Unit} {files : List α}
    {s : Sched α} (h : Reachable cap run files s) : Inv cap run files s := by
  obtain ⟨acts, hacts⟩ := h
  exact runActions_inv acts _ _ (init_inv cap run files) hacts

theorem inv_returned {α : Type} {cap : Nat} {run : α → Except Fatal Unit} {files : List α}
    {s : Sched α} (hs : Inv cap run files s) (hpc : s.pc = .returned) :
    s.todo = [] ∧ s.uploading = [] ∧ s.finishing = [] ∧ s.releasing = [] ∧
      s.exited.Perm files := by
  obtain ⟨h1, h2, h3, h4, h5, h6, h7⟩ := hs
  rw [hpc] at h2 h4 h5
  simp only [pcSlots] at h2
  have hu : s.uploading = [] := List.length_eq_zero.mp (by omega)
  have hf : s.finishing = [] := List.length_eq_zero.mp (by omega)
  have hr : s.releasing = [] := List.length_eq_zero.mp (by omega)
  have ht : s.todo = [] := h5 rfl
  refine ⟨ht, hu, hf, hr, ?_⟩
  rw [ht, hu, hf, hr] at h4
  simpa [pcFile] using h4

theorem zero_cap_step {α : Type} {run : α → Except Fatal Unit} {file : α} {rest : List α}
    {s s1 : Sched α} {a : Action} (hs : s = init (file :: rest) ∨ s = blocked file rest)
    (h : step 0 run s a = some s1) : s1 = blocked file rest := by
  rcases hs with rfl | rfl
  · cases a <;> simp [step, init, blocked] at h ⊢
    exact h.symm
  · cases a <;> simp [step, init, blocked] at h

theorem zero_cap_states {α : Type} {run : α → Except Fatal Unit} {file : α} {rest : List α}
    (acts : List Action) :
    ∀ s s1 : Sched α, s = init (file :: rest) ∨ s = blocked file rest →
      runActions 0 run s acts = some s1 → s1 = init (file :: rest) ∨ s1 = blocked file rest := by
  induction acts with
  | nil =>
    intro s s1 hs h
    simp only [runActions, Option.some.injEq] at h
    exact h ▸ hs
  | cons a tl ih =>
    intro s s1 hs h
    simp only [runActions] at h
    split at h
    · simp at h
    · rename_i s2 hstep
      exact ih s2 s1 (Or.inr (zero_cap_step hs hstep)) h

theorem runActions_append {α : Type} (cap : Nat) (run : α → Except Fatal Unit)
    (xs ys : List Action) :
    ∀ s s1 : Sched α, runActions cap run s xs = some s1 →
      runActions cap run s (xs ++ ys) = runActions cap run s1 ys := by
  induction xs with
  | nil =>
    intro s s1 h
    simp only [runActions, Option.some.injEq] at h
    simp [h]
  | cons a rest ih =>
    intro s s1 h
    simp only [runActions, List.cons_append] at h ⊢
    split at h
    · simp at h
    · rename_i s2 hstep
      exact ih s2 s1 h

theorem sequential_files {α : Type} (cap : Nat) (run : α → Except Fatal Unit) (hcap : 1 ≤ cap) :
    ∀ (todo done : List α), (∀ file ∈ todo, run file = .ok ()) →
      runActions cap run (idle todo done)
          (List.replicate todo.length
            [Action.next, .send, .go, .upload 0, .wgDone 0, .recv 0]).flatten
        = some (idle [] (todo.reverse ++ done)) := by
  intro todo
  induction todo with
  | nil =>
    intro done _
    rfl
  | cons file rest ih =>
    intro done hok
    have hfile : run file = .ok () := hok file (List.mem_cons_self _ _)
    have hrest := ih (file :: done) (fun f hf => hok f (List.mem_cons_of_mem _ hf))
    have hpos : 0 < cap := hcap
    have hone : runActions cap run (idle (file :: rest) done)
        [Action.next, .send, .go, .upload 0, .wgDone 0, .recv 0]
          = some (idle rest (file :: done)) := by
      simp [runActions, step, idle, init, hfile, hpos]
    have hrev : (file :: rest).reverse ++ done = rest.reverse ++ file :: done := by simp
    rw [hrev]
    exact (runActions_append cap run _ _ _ _ hone).trans hrest

theorem sequential_drain {α : Type} (cap : Nat) (run : α → Except Fatal Unit) (done : List α) :
    ∀ k i : Nat, i + k = cap →
      runActions cap run { idle [] done with pc := .drain i, sem := i }
          (List.replicate k .drainSend)
        = some { idle [] done with pc := .drain cap, sem := cap } := by
  intro k
  induction k with
  | zero =>
    intro i hi
    have : i = cap := by omega
    subst this
    rfl
  | succ k ih =>
    intro i hi
    have hlt : i < cap := by omega
    have hstep : step cap run { idle [] done with pc := .drain i, sem := i } .drainSend
        = some { idle [] done with pc := .drain (i + 1), sem := i + 1 } := by
      simp [step, idle, init, hlt]
    simp only [List.replicate_succ, runActions, hstep]
    exact ih (i + 1) (by omega)

/-- With at least one slot and no failing upload `uploadDirToS3` can return:
the sequential schedule leads from the initial state to the returned state in
which every file's worker has exited. -/
theorem sequential_run_returns {α : Type} (cap : Nat) (run : α → Except Fatal Unit)
    (files : List α) (hcap : 1 ≤ cap) (hok : ∀ file ∈ files, run file = .ok ()) :
    runActions cap run (init files) (sequentialSchedule cap files.length)
      = some { init [] with pc := .returned, sem := cap, exited := files.reverse } := by
  have h1 := sequential_files cap run hcap files [] hok
  have h2 : runActions cap run (idle [] (files.reverse ++ []))
      (.endLoop :: List.replicate cap .drainSend ++ [.drainEnd, .waitDone])
        = some { init [] with pc := .returned, sem := cap, exited := files.reverse } := by
    have hd := sequential_drain cap run files.reverse cap 0 (by omega)
    have hend : step cap run (idle [] (files.reverse ++ [])) .endLoop
        = some { idle [] files.reverse with pc := .drain 0, sem := 0 } := by
      simp [step, idle, init]
    have hlast : runActions cap run { idle [] files.reverse with pc := .drain cap, sem := cap }
        [.drainEnd, .waitDone]
          = some { init [] with pc := .returned, sem := cap, exited := files.reverse } := by
      simp [runActions, step, idle, init]
    have hmid := (runActions_append cap run _ [.drainEnd, .waitDone] _ _ hd).trans hlast
    simp only [List.cons_append, runActions, hend]
    exact hmid
  exact (runActions_append cap run _ _ _ _ h1).trans h2

/-! ## Claims about the scheduler -/

/-- C1: in every state the scheduler of `uploadDirToS3` can reach, for every
channel capacity and every file list, the number of uploads running at the same
time is at most the capacity; more precisely the workers that have not yet
released their slot are at most the values held in the channel, which are at
most the capacity. -/
theorem running_uploads_le_capacity {α : Type} (cap : Nat) (run : α → Except Fatal Unit)
    (files : List α) (s : Sched α) (h : Reachable cap run files s) :
    s.uploading.length ≤ cap ∧
      s.uploading.length + s.finishing.length + s.releasing.length ≤ s.sem ∧ s.sem ≤ cap := by
  obtain ⟨h1, h2, -⟩ := reachable_inv h
  omega

theorem running_uploads_le_capacity_witness :
    Reachable 2 fiveRun fiveFiles twoRunning ∧ twoRunning.uploading.length = 2 ∧
      twoRunning.uploading.length ≤ 2 :=
  ⟨⟨fiveSchedule.take 6, by decide⟩, rfl,
    (running_uploads_le_capacity 2 fiveRun fiveFiles twoRunning
      ⟨fiveSchedule.take 6, by decide⟩).1⟩

/-- C7: a state in which `uploadDirToS3` has passed the drain loop and
`wg.Wait()` has no file left to dispatch and no worker uploading or inside its
deferred calls; the workers that have exited are exactly the walked files, each
of their uploads succeeded, and the process has not been terminated.  This
holds for every capacity and whether or not some upload can fail. -/
theorem returned_all_done {α : Type} (cap : Nat) (run : α → Except Fatal Unit)
    (files : List α) (s : Sched α) (h : Reachable cap run files s) (hpc : s.pc = .returned) :
    s.todo = [] ∧ s.uploading = [] ∧ s.finishing = [] ∧ s.releasing = [] ∧
      s.exited.Perm files ∧ s.exited.length = files.length ∧
      (∀ file ∈ files, run file = .ok ()) ∧ s.halted = none := by
  have hs := reachable_inv h
  obtain ⟨ht, hu, hf, hr, hp⟩ := inv_returned hs hpc
  refine ⟨ht, hu, hf, hr, hp, hp.length_eq, ?_, hs.live hpc⟩
  intro file hfile
  exact hs.ran file (Or.inr (Or.inr (hp.mem_iff.mpr hfile)))

theorem returned_all_done_witness :
    Reachable 2 fiveRun fiveFiles fiveDone ∧ fiveDone.pc = .returned ∧
      fiveDone.exited.Perm fiveFiles ∧ fiveDone.exited.length = 5 :=
  ⟨⟨fiveSchedule, by decide⟩, rfl,
    (returned_all_done 2 fiveRun fiveFiles fiveDone ⟨fiveSchedule, by decide⟩ rfl).2.2.2.2.1,
    rfl⟩

/-- C10: with a channel of capacity 0 and at least one walked file the
scheduler reaches only its initial state and the state blocked at the first
`sem <- true`: no worker is ever started, the send and the hand-over are never
enabled, and `uploadDirToS3` never returns; with capacity 0 and no file the
three steps end of loop, end of drain loop and `wg.Wait()` lead to the returned
state. -/
theorem zero_capacity_blocks {α : Type} (run : α → Except Fatal Unit) :
    (∀ (file : α) (rest : List α) (s : Sched α), Reachable 0 run (file :: rest) s →
      (s = init (file :: rest) ∨ s = blocked file rest) ∧
      s.uploading = [] ∧ s.finishing = [] ∧ s.releasing = [] ∧ s.exited = [] ∧
      s.pc ≠ .returned ∧ step 0 run s .send = none ∧
      (∀ i, step 0 run s (.handoff i) = none) ∧ step 0 run s .go = none) ∧
    Reachable 0 run [] { init ([] : List α) with pc := .returned } ∧
    runActions 0 run (init []) [.endLoop, .drainEnd, .waitDone]
      = some { init ([] : List α) with pc := .returned } := by
  refine ⟨?_, ⟨[.endLoop, .drainEnd, .waitDone], rfl⟩, rfl⟩
  intro file rest s h
  obtain ⟨acts, hacts⟩ := h
  have hs := zero_cap_states acts _ _ (Or.inl rfl) hacts
  refine ⟨hs, ?_⟩
  rcases hs with rfl | rfl <;> simp [init, blocked, step]

theorem zero_capacity_blocks_witness :
    Reachable 0 fiveRun fiveFiles (blocked "/data/1".toList (fiveFiles.drop 1)) ∧
      step 0 fiveRun (blocked "/data/1".toList (fiveFiles.drop 1)) .send = none :=
  ⟨⟨[.next], by decide⟩,
    ((zero_capacity_blocks fiveRun).1 "/data/1".toList (fiveFiles.drop 1) _
      ⟨[.next], by decide⟩).2.2.2.2.2.2.1⟩

/-! ## Fail-fast policy -/

theorem checkErr_ok_iff (err : Option Str) : checkErr err = .ok () ↔ err = none := by
  cases err <;> simp [checkErr]

theorem uploadFileToS3_fails (w : World) (p : s3payload)
    (h : w.openFile p.source ≠ none ∨ w.putObject (putInput p) ≠ none) :
    ∃ f : Fatal, (uploadFileToS3 w p).2 = .error f ∧ f.status = 1 := by
  unfold uploadFileToS3
  cases h1 : w.newSession p.endpoint p.region p.keyId p.secret with
  | some e => exact ⟨logFatal e, by simp [checkErr], rfl⟩
  | none =>
    cases h2 : w.openFile p.source with
    | some e => exact ⟨logFatal e, by simp [checkErr], rfl⟩
    | none =>
      cases h3 : w.putObject (putInput p) with
      | some e => exact ⟨logFatal e, by simp [checkErr], rfl⟩
      | none => simp [h2, h3] at h

theorem halted_no_step {α : Type} (cap : Nat) (run : α → Except Fatal Unit) (s : Sched α)
    (h : s.halted ≠ none) (a : Action) : step cap run s a = none := by
  obtain ⟨c, hc⟩ := Option.ne_none_iff_exists'.mp h
  cases a <;> simp [step, hc]

theorem failing_job_never_returned {α : Type} {cap : Nat} {run : α → Except Fatal Unit}
    {files : List α} {s : Sched α} {job : α} {f : Fatal} (hjob : job ∈ files)
    (hrun : run job = .error f) (h : Reachable cap run files s) : s.pc ≠ .returned := by
  intro hpc
  have hs := reachable_inv h
  obtain ⟨-, -, -, -, hp⟩ := inv_returned hs hpc
  have := hs.ran job (Or.inr (Or.inr (hp.mem_iff.mpr hjob)))
  rw [hrun] at this
  cases this

/-- C6: `checkErr` lets the run go on exactly when the error is nil.  An
`uploadFileToS3` whose open or PUT fails ends the process with status 1.  In
directory mode, when this is so for some file of the list: `uploadDirToS3`
never returns (so the completion line is not reached), the step in which that
file's upload ends terminates the process with status 1 whatever the other
workers have done, and a terminated process takes no further step.  In `main`,
an upload call that ended the process leaves the trace without the completion
line, in both modes. -/
theorem failed_upload_aborts (w : World) (payload : s3payload) (dirPath : Str) (cap : Nat)
    (files : List Str) :
    (∀ err, checkErr err = .ok () ↔ err = none) ∧
    (∀ p : s3payload, w.openFile p.source ≠ none ∨ w.putObject (putInput p) ≠ none →
      ∃ f : Fatal, (uploadFileToS3 w p).2 = .error f ∧ f.status = 1 ∧ f.status ≠ 0) ∧
    (∀ file ∈ files,
      (w.openFile file ≠ none ∨
        w.putObject (putInput (filePayload payload dirPath file)) ≠ none) →
      ∀ s, Reachable cap (worker w payload dirPath) files s →
        s.pc ≠ .returned ∧
        (∀ i, s.halted = none → s.uploading[i]? = some file →
          step cap (worker w payload dirPath) s (.upload i) = some { s with halted := some 1 }) ∧
        (s.halted ≠ none → ∀ a, step cap (worker w payload dirPath) s a = none)) ∧
    (∀ (uploadDir : s3payload → List Event × Except Fatal Unit) (f : Fatal),
      isDirectory w payload.source = .ok true → (uploadDir payload).2 = .error f →
      main w payload uploadDir = (.log startLine :: (uploadDir payload).1, .error f)) ∧
    (∀ (uploadDir : s3payload → List Event × Except Fatal Unit),
      isDirectory w payload.source = .ok false →
      (w.openFile payload.source ≠ none ∨ w.putObject (putInput payload) ≠ none) →
      ∃ f : Fatal, f.status = 1 ∧
        main w payload uploadDir = (.log startLine :: (uploadFileToS3 w payload).1, .error f)) := by
  refine ⟨checkErr_ok_iff, ?_, ?_, ?_, ?_⟩
  · intro p hp
    obtain ⟨f, hf, hst⟩ := uploadFileToS3_fails w p hp
    exact ⟨f, hf, hst, by rw [hst]; decide⟩
  · intro file hfile hfail s hs
    obtain ⟨f, hf, hst⟩ := uploadFileToS3_fails w (filePayload payload dirPath file) hfail
    have hrun : worker w payload dirPath file = .error f := hf
    refine ⟨failing_job_never_returned hfile hrun hs, ?_, fun hh a => halted_no_step _ _ s hh a⟩
    intro i hh hup
    simp [step, hh, hup, hrun, hst]
  · intro uploadDir f hdir hres
    simp [main, hdir, hres]
  · intro uploadDir hfileMode hfail
    obtain ⟨f, hf, hst⟩ := uploadFileToS3_fails w payload hfail
    exact ⟨f, hst, by simp [main, hfileMode, hf]⟩

theorem failed_upload_aborts_witness :
    Reachable 2 failRun fiveFiles beforeFailure ∧
      step 2 failRun beforeFailure (.upload 0) = some { beforeFailure with halted := some 1 } :=
  ⟨⟨[.next, .send, .go, .upload 0, .wgDone 0, .recv 0, .next, .send, .go, .next, .send, .go],
      by decide⟩,
    ((failed_upload_aborts failWorld (demoPayload "/data".toList "x".toList 2) "/data".toList 2
        fiveFiles).2.2.1 "/data/3".toList (by decide) (Or.inl (by decide)) beforeFailure
      ⟨[.next, .send, .go, .upload 0, .wgDone 0, .recv 0, .next, .send, .go, .next, .send, .go],
        by decide⟩).2.1 0 rfl rfl⟩

/-! ## Keys and payloads -/

theorem put_mem_uploadFileToS3 {w : World} {p : s3payload} {inp : PutObjectInput}
    (h : Event.put inp ∈ (uploadFileToS3 w p).1) : inp = putInput p := by
  unfold uploadFileToS3 at h
  cases h1 : checkErr (w.newSession p.endpoint p.region p.keyId p.secret) <;>
    cases h2 : checkErr (w.openFile p.source) <;>
    cases h3 : checkErr (w.putObject (putInput p)) <;>
    simp [h1, h2, h3] at h <;> exact h

theorem put_mem_main_file {w : World} {p : s3payload}
    {uploadDir : s3payload → List Event × Except Fatal Unit} {inp : PutObjectInput}
    (hmode : isDirectory w p.source = .ok false)
    (h : Event.put inp ∈ (main w p uploadDir).1) : inp = putInput p := by
  simp only [main, hmode] at h
  cases hr : (uploadFileToS3 w p).2 <;> simp [hr] at h <;> exact put_mem_uploadFileToS3 h

/-- C3: in single-file mode every PUT of the run has the key
`bucketPrefix + "/" + Base(source)`, and that PUT is issued once the session
and the open succeed; hence a source with the same base name and the same
bucket prefix gets the same key, wherever it lies. -/
theorem single_file_key (w : World) (payload : s3payload)
    (uploadDir : s3payload → List Event × Except Fatal Unit)
    (hmode : isDirectory w payload.source = .ok false) :
    (∀ inp, Event.put inp ∈ (main w payload uploadDir).1 →
      inp.Key = payload.bucketPrefix ++ "/".toList ++ Base payload.source) ∧
    (w.newSession payload.endpoint payload.region payload.keyId payload.secret = none →
      w.openFile payload.source = none →
      Event.put (putInput payload) ∈ (main w payload uploadDir).1) ∧
    (putInput payload).Key = payload.bucketPrefix ++ "/".toList ++ Base payload.source ∧
    (∀ other : s3payload, other.bucketPrefix = payload.bucketPrefix →
      Base other.source = Base payload.source → fileKey other = fileKey payload) := by
  refine ⟨?_, ?_, rfl, ?_⟩
  · intro inp h
    rw [put_mem_main_file hmode h]
    rfl
  · intro hs ho
    simp only [main, hmode, uploadFileToS3, hs, ho, checkErr]
    cases w.putObject (putInput payload) <;> simp
  · intro other hp hb
    simp only [fileKey, hp, hb]

theorem single_file_key_witness :
    isDirectory demoWorld "/tmp/report.csv".toList = .ok false ∧
      Event.put { Bucket := "b".toList, Key := "docs/report.csv".toList,
                  Body := "/tmp/report.csv".toList, ACL := "private".toList }
        ∈ (main demoWorld (demoPayload "/tmp/report.csv".toList "docs".toList 10) dirStub).1 ∧
      fileKey (demoPayload "/home/u/report.csv".toList "docs".toList 10)
        = "docs/report.csv".toList :=
  ⟨rfl,
    (single_file_key demoWorld (demoPayload "/tmp/report.csv".toList "docs".toList 10) dirStub
      rfl).2.1 rfl rfl,
    rfl⟩

theorem replaceFrom_single (c : Char) (new s : Str) :
    replaceFrom [c] new 0 s = s.flatMap (fun x => if x = c then new else [x]) := by
  induction s with
  | nil => rfl
  | cons x t ih =>
    by_cases hx : x = c
    · subst hx
      simp [replaceFrom, List.isPrefixOf, ih]
    · have hx1 : ¬ c = x := fun h => hx h.symm
      simp [replaceFrom, List.isPrefixOf, ih, hx, hx1]

theorem Replace_single (c d : Char) (s : Str) :
    Replace s [c] [d] = s.map (fun x => if x = c then d else x) := by
  simp only [Replace, List.cons_ne_nil, if_false, replaceFrom_single]
  induction s with
  | nil => rfl
  | cons x t ih =>
    simp only [List.flatMap_cons, List.map_cons, ih]
    by_cases hx : x = c <;> simp [hx]

theorem Replace_single_append (c d : Char) (s t : Str) :
    Replace (s ++ t) [c] [d] = Replace s [c] [d] ++ Replace t [c] [d] := by
  simp only [Replace_single, List.map_append]

theorem Replace_single_of_not_mem (c d : Char) (s : Str) (h : c ∉ s) :
    Replace s [c] [d] = s := by
  rw [Replace_single]
  induction s with
  | nil => rfl
  | cons x t ih =>
    have hx : ¬ x = c := fun hxc => h (hxc ▸ List.mem_cons_self _ _)
    have ht : c ∉ t := fun hc => h (List.mem_cons_of_mem _ hc)
    simp [hx, ih ht]

theorem fileKey_filePayload (payload : s3payload) (dirPath file : Str) :
    fileKey (filePayload payload dirPath file)
      = Replace payload.bucketPrefix ['\\'] ['/']
          ++ (Replace (Replace (Dir file) dirPath []) ['\\'] ['/'] ++ "/".toList ++ Base file) := by
  simp only [fileKey, filePayload, jobPrefix, Replace_single_append, List.append_assoc]

theorem replaceFrom_skip (old new : Str) (a b : Str) :
    replaceFrom old new a.length (a ++ b) = replaceFrom old new 0 b := by
  induction a with
  | nil => rfl
  | cons x t ih => simpa [replaceFrom] using ih

theorem replaceFrom_no_match (old new : Str) (s : Str)
    (h : ∀ t, t <:+ s → ¬ old <+: t) : replaceFrom old new 0 s = s := by
  induction s with
  | nil => rfl
  | cons x t ih =>
    have hx : old.isPrefixOf (x :: t) = false := by
      rw [Bool.eq_false_iff]
      intro hp
      exact h (x :: t) (List.suffix_refl _) (List.isPrefixOf_iff_prefix.mp hp)
    have ht : ∀ u, u <:+ t → ¬ old <+: u := fun u hu => h u (hu.trans (List.suffix_cons x t))
    simp [replaceFrom, hx, ih ht]

theorem Replace_leading_only (root rel : Str) (hroot : root ≠ [])
    (h : ∀ t, t <:+ rel → ¬ root <+: t) : Replace (root ++ rel) root [] = rel := by
  obtain ⟨c, r, rfl⟩ := List.exists_cons_of_ne_nil hroot
  have hp : (c :: r).isPrefixOf (c :: (r ++ rel)) = true :=
    List.isPrefixOf_iff_prefix.mpr ⟨rel, rfl⟩
  have h0 : Replace ((c :: r) ++ rel) (c :: r) []
      = replaceFrom (c :: r) [] 0 (c :: (r ++ rel)) := by
    simp [Replace]
  rw [h0, replaceFrom, if_pos hp, List.nil_append, List.length_cons, Nat.add_sub_cancel,
    replaceFrom_skip]
  exact replaceFrom_no_match (c :: r) [] rel h

/-- Where the walked root is not empty and occurs in the directory of the file
as its leading prefix and nowhere after it, the key of directory mode is the one
the specification words. -/
theorem dir_key_agrees_without_inner_root (payload : s3payload) (root file rel : Str)
    (hroot : root ≠ []) (hdir : Dir file = root ++ rel)
    (h : ∀ t, t <:+ rel → ¬ root <+: t) :
    fileKey (filePayload payload root file) = specDirKey payload.bucketPrefix root file := by
  have hp : root.isPrefixOf (root ++ rel) = true := List.isPrefixOf_iff_prefix.mpr ⟨rel, rfl⟩
  simp only [fileKey, filePayload, jobPrefix, specDirKey, hdir, hp, if_true,
    Replace_leading_only root rel hroot h, List.drop_left]

/-- C8, as amended: in single-file mode the key starts with the configured
bucket prefix as it is; in directory mode the key starts with the bucket prefix
in which every backslash has been replaced by `/`, which is the configured
bucket prefix itself when it contains no backslash. -/
theorem bucketPrefix_leads_key (payload : s3payload) (dirPath file : Str) :
    payload.bucketPrefix <+: fileKey payload ∧
    Replace payload.bucketPrefix ['\\'] ['/'] <+: fileKey (filePayload payload dirPath file) ∧
    ('\\' ∉ payload.bucketPrefix →
      payload.bucketPrefix <+: fileKey (filePayload payload dirPath file)) := by
  refine ⟨⟨_, (List.append_assoc _ _ _).symm⟩, ⟨_, (fileKey_filePayload payload dirPath file).symm⟩,
    ?_⟩
  intro h
  rw [fileKey_filePayload, Replace_single_of_not_mem _ _ _ h]
  exact List.prefix_append _ _

theorem bucketPrefix_leads_key_witness :
    '\\' ∉ "x".toList ∧
      "x".toList <+: fileKey (filePayload (demoPayload "/data".toList "x".toList 2)
        "/data".toList "/data/sub/b.txt".toList) :=
  ⟨by decide,
    (bucketPrefix_leads_key (demoPayload "/data".toList "x".toList 2) "/data".toList
      "/data/sub/b.txt".toList).2.2 (by decide)⟩

/-- C8 as stated fails: with bucket prefix `a\b` the key of `/data/a.txt` under
the root `/data` is `a/b/a.txt`, of which `a\b` is no prefix. -/
theorem bucketPrefix_backslash_rewritten :
    fileKey (filePayload (demoPayload "/data".toList "a\\b".toList 2) "/data".toList
        "/data/a.txt".toList) = "a/b/a.txt".toList ∧
      ¬ ("a\\b".toList <+: fileKey (filePayload (demoPayload "/data".toList "a\\b".toList 2)
        "/data".toList "/data/a.txt".toList)) := by
  decide

/-- C2 fails on the code: under the root `/data` and bucket prefix `x`, the file
`/data/sub/data/b.txt` gets the key `x/sub/b.txt`, since `strings.Replace`
removes every occurrence of the root from the directory, while removing the
root as a leading prefix only gives `x/sub/data/b.txt`.  On the two files of
the specification's scenario the code gives `x/a.txt` and `x/sub/b.txt`. -/
theorem dir_key_removes_every_root_occurrence :
    fileKey (filePayload (demoPayload "/data".toList "x".toList 2) "/data".toList
        "/data/sub/data/b.txt".toList) = "x/sub/b.txt".toList ∧
      specDirKey "x".toList "/data".toList "/data/sub/data/b.txt".toList
        = "x/sub/data/b.txt".toList ∧
      fileKey (filePayload (demoPayload "/data".toList "x".toList 2) "/data".toList
        "/data/a.txt".toList) = "x/a.txt".toList ∧
      fileKey (filePayload (demoPayload "/data".toList "x".toList 2) "/data".toList
        "/data/sub/b.txt".toList) = "x/sub/b.txt".toList := by
  decide

/-- C9, as amended: the per-file payload is the run configuration with `source`
set to the file, `bucketPrefix` set to the per-file prefix and `concurrency`
left at zero; endpoint, region, key id, secret, bucket and permissions are the
configured ones, and every PUT of the worker names the configured bucket, the
configured permissions and that file. -/
theorem filePayload_frame (w : World) (payload : s3payload) (dirPath file : Str) :
    filePayload payload dirPath file
      = { payload with source := file, bucketPrefix := jobPrefix payload dirPath file,
                       concurrency := 0 } ∧
    (filePayload payload dirPath file).source = file ∧
    (filePayload payload dirPath file).endpoint = payload.endpoint ∧
    (filePayload payload dirPath file).region = payload.region ∧
    (filePayload payload dirPath file).keyId = payload.keyId ∧
    (filePayload payload dirPath file).secret = payload.secret ∧
    (filePayload payload dirPath file).bucket = payload.bucket ∧
    (filePayload payload dirPath file).permissions = payload.permissions ∧
    (∀ inp, Event.put inp ∈ (uploadFileToS3 w (filePayload payload dirPath file)).1 →
      inp.Bucket = payload.bucket ∧ inp.ACL = payload.permissions ∧ inp.Body = file) := by
  refine ⟨rfl, rfl, rfl, rfl, rfl, rfl, rfl, rfl, ?_⟩
  intro inp h
  rw [put_mem_uploadFileToS3 h]
  exact ⟨rfl, rfl, rfl⟩

/-- C9 as stated fails: with the default concurrency 10 the per-file payload
differs from the run configuration in `concurrency` too, which the worker
leaves at zero. -/
theorem filePayload_concurrency_differs :
    (filePayload (demoPayload "/data".toList "x".toList 10) "/data".toList
        "/data/a.txt".toList).concurrency = 0 ∧
      (demoPayload "/data".toList "x".toList 10).concurrency = 10 ∧
      filePayload (demoPayload "/data".toList "x".toList 10) "/data".toList "/data/a.txt".toList
        ≠ { demoPayload "/data".toList "x".toList 10 with
            source := "/data/a.txt".toList,
            bucketPrefix := jobPrefix (demoPayload "/data".toList "x".toList 10) "/data".toList
              "/data/a.txt".toList } := by
  decide

/-! ## The mode decision of `main` -/

/-- C5, as amended: when `os.Stat` fails on the source, `main` ends in
`log.Fatal` (status 1) with the start line as its only effect, whatever the
directory upload would do; a source that is a directory enters
`uploadDirToS3`; a source that is neither a directory nor a regular file is
handled exactly as a regular file is: `uploadFileToS3` runs on it. -/
theorem main_mode_decision (w : World) (payload : s3payload)
    (uploadDir : s3payload → List Event × Except Fatal Unit) :
    (∀ e, w.stat payload.source = .error e →
      main w payload uploadDir = ([.log startLine], .error { msg := e, status := 1 })) ∧
    (w.stat payload.source = .ok .dir →
      .log startLine :: (uploadDir payload).1 <+: (main w payload uploadDir).1 ∧
      ((main w payload uploadDir).2 = .ok () ↔ ∃ u, (uploadDir payload).2 = .ok u)) ∧
    (w.stat payload.source = .ok .other ∨ w.stat payload.source = .ok .regular →
      isDirectory w payload.source = .ok false ∧
      .log startLine :: (uploadFileToS3 w payload).1 <+: (main w payload uploadDir).1 ∧
      (main w payload uploadDir).2 = (uploadFileToS3 w payload).2) := by
  refine ⟨?_, ?_, ?_⟩
  · intro e he
    simp [main, isDirectory, he, logFatal]
  · intro hd
    simp only [main, isDirectory, hd]
    cases hr : (uploadDir payload).2 <;> simp [hr]
  · intro ho
    have hmode : isDirectory w payload.source = .ok false := by
      rcases ho with ho | ho <;> simp [isDirectory, ho]
    refine ⟨hmode, ?_, ?_⟩
    · simp only [main, hmode]
      cases hr : (uploadFileToS3 w payload).2 <;> simp [hr]
    · simp only [main, hmode]
      cases hr : (uploadFileToS3 w payload).2 <;> simp [hr]

theorem main_mode_decision_witness :
    missingWorld.stat "/nowhere".toList = .error "no such file or directory".toList ∧
      main missingWorld (demoPayload "/nowhere".toList "x".toList 10) dirStub
        = ([.log startLine],
           .error { msg := "no such file or directory".toList, status := 1 }) :=
  ⟨rfl,
    (main_mode_decision missingWorld (demoPayload "/nowhere".toList "x".toList 10) dirStub).1
      _ rfl⟩

/-- C5 as stated fails: on a source that is a special file `main` does not
abort; it runs `uploadFileToS3`, which issues the PUT, and logs completion. -/
theorem special_file_is_uploaded :
    deviceWorld.stat "/dev/null".toList = .ok .other ∧
      main deviceWorld (demoPayload "/dev/null".toList "x".toList 10) dirStub
        = ([.log startLine,
            .log (uploadLine (demoPayload "/dev/null".toList "x".toList 10)),
            .put { Bucket := "b".toList, Key := "x/null".toList, Body := "/dev/null".toList,
                   ACL := "private".toList },
            .log finishLine], .ok ()) :=
  ⟨rfl, rfl⟩

/-! ## Paths -/

theorem splitSlash_cons_slash (s : Str) : splitSlash ('/' :: s) = [] :: splitSlash s := by
  simp [splitSlash]

theorem splitSlash_ne_nil (s : Str) : splitSlash s ≠ [] := by
  induction s with
  | nil => simp [splitSlash]
  | cons x t ih =>
    by_cases hx : x = '/'
    · simp [splitSlash, hx]
    · simp only [splitSlash, hx, if_false]
      split <;> simp

theorem splitSlash_append_slash (c rest : Str) (hc : '/' ∉ c) :
    splitSlash (c ++ '/' :: rest) = c :: splitSlash rest := by
  induction c with
  | nil => exact splitSlash_cons_slash rest
  | cons x t ih =>
    have hx : x ≠ '/' := fun h => hc (h ▸ List.mem_cons_self _ _)
    have ht : '/' ∉ t := fun h => hc (List.mem_cons_of_mem _ h)
    simp [splitSlash, hx, ih ht]

theorem splitSlash_no_slash (c : Str) (hc : '/' ∉ c) : splitSlash c = [c] := by
  induction c with
  | nil => rfl
  | cons x t ih =>
    have hx : x ≠ '/' := fun h => hc (h ▸ List.mem_cons_self _ _)
    have ht : '/' ∉ t := fun h => hc (List.mem_cons_of_mem _ h)
    simp [splitSlash, hx, ih ht]

theorem mem_splitSlash (s : Str) : ∀ c ∈ splitSlash s, '/' ∉ c := by
  induction s with
  | nil => simp [splitSlash]
  | cons x t ih =>
    by_cases hx : x = '/'
    · intro c hc
      simp only [splitSlash, hx, if_true, List.mem_cons] at hc
      rcases hc with rfl | hc
      · simp
      · exact ih c hc
    · intro c hc
      simp only [splitSlash, hx, if_false] at hc
      split at hc
      · rename_i hnil
        exact absurd hnil (splitSlash_ne_nil t)
      · rename_i seg rest hsplit
        have hseg : '/' ∉ seg := ih seg (by rw [hsplit]; exact List.mem_cons_self _ _)
        rcases List.mem_cons.mp hc with rfl | hc
        · intro hmem
          rcases List.mem_cons.mp hmem with h | h
          · exact hx h.symm
          · exact hseg h
        · exact ih c (by rw [hsplit]; exact List.mem_cons_of_mem _ hc)

theorem intercalate_singleton (c : Str) : ['/'].intercalate [c] = c := by
  simp [List.intercalate, List.intersperse]

theorem intercalate_cons_cons (c d : Str) (rest : List Str) :
    ['/'].intercalate (c :: d :: rest) = c ++ '/' :: ['/'].intercalate (d :: rest) := by
  simp [List.intercalate, List.intersperse]

theorem intercalate_append_singleton (segs : List Str) (name : Str) (h : segs ≠ []) :
    ['/'].intercalate (segs ++ [name]) = ['/'].intercalate segs ++ '/' :: name := by
  induction segs with
  | nil => exact absurd rfl h
  | cons c rest ih =>
    cases rest with
    | nil => simp [intercalate_cons_cons, intercalate_singleton]
    | cons d rest =>
      have := ih (List.cons_ne_nil _ _)
      simp only [List.cons_append] at this ⊢
      rw [intercalate_cons_cons, this, intercalate_cons_cons]
      simp

theorem splitSlash_intercalate (segs : List Str) (hne : segs ≠ []) (h : ∀ c ∈ segs, '/' ∉ c) :
    splitSlash (['/'].intercalate segs) = segs := by
  induction segs with
  | nil => exact absurd rfl hne
  | cons c rest ih =>
    have hc : '/' ∉ c := h c (List.mem_cons_self _ _)
    cases rest with
    | nil => rw [intercalate_singleton, splitSlash_no_slash c hc]
    | cons d rest =>
      rw [intercalate_cons_cons, splitSlash_append_slash c _ hc,
        ih (List.cons_ne_nil _ _) (fun x hx => h x (List.mem_cons_of_mem _ hx))]

theorem properName_iff (name : Str) :
    properName name = true ↔ name ≠ [] ∧ '/' ∉ name ∧ name ≠ ['.'] ∧ name ≠ ['.', '.'] := by
  simp [properName]

theorem cleanStep_proper (r : Bool) (out : List Str) (c : Str) (h : properName c = true) :
    cleanStep r out c = c :: out := by
  obtain ⟨h1, -, h3, h4⟩ := (properName_iff c).mp h
  simp [cleanStep, h1, h3, h4]

theorem foldl_cleanStep_proper (r : Bool) (xs : List Str) :
    ∀ acc : List Str, (∀ c ∈ xs, properName c = true) →
      xs.foldl (cleanStep r) acc = xs.reverse ++ acc := by
  induction xs with
  | nil => intro acc _; rfl
  | cons x t ih =>
    intro acc h
    rw [List.foldl_cons, cleanStep_proper r acc x (h x (List.mem_cons_self _ _)),
      ih _ (fun c hc => h c (List.mem_cons_of_mem _ hc))]
    simp

theorem Clean_absPath (segs : List Str) (h : ∀ c ∈ segs, properName c = true) :
    Clean (absPath segs) = absPath segs := by
  have hslash : ∀ c ∈ segs, '/' ∉ c := fun c hc => ((properName_iff c).mp (h c hc)).2.1
  by_cases hs : segs = []
  · subst hs
    rfl
  · simp only [Clean, absPath, List.cons_ne_nil, if_false, List.head?_cons, decide_True, if_true,
      splitSlash_cons_slash, splitSlash_intercalate segs hs hslash, List.foldl_cons]
    have h0 : cleanStep true [] [] = [] := by simp [cleanStep]
    rw [h0, foldl_cleanStep_proper true segs [] h]
    simp

theorem absPath_append_singleton (segs : List Str) (name : Str) (hs : segs ≠ []) :
    absPath segs ++ '/' :: name = absPath (segs ++ [name]) := by
  simp [absPath, intercalate_append_singleton segs name hs]

theorem Join_absPath (segs : List Str) (name : Str) (hs : ∀ c ∈ segs, properName c = true)
    (hn : properName name = true) : Join (absPath segs) name = absPath (segs ++ [name]) := by
  have hall : ∀ c ∈ segs ++ [name], properName c = true := by
    intro c hc
    rcases List.mem_append.mp hc with hc | hc
    · exact hs c hc
    · rw [List.mem_singleton.mp hc]; exact hn
  have hne : absPath segs ≠ [] := by simp [absPath]
  simp only [Join, hne, ne_eq, not_false_eq_true, if_true]
  by_cases hsegs : segs = []
  · subst hsegs
    obtain ⟨h1, h2, h3, h4⟩ := (properName_iff name).mp hn
    have hfold : [[], [], name].foldl (cleanStep true) [] = [name] := by
      simp [cleanStep, h1, h3, h4]
    simp [Clean, absPath, List.intercalate, splitSlash_cons_slash, splitSlash_no_slash name h2,
      hfold]
  · rw [absPath_append_singleton segs name hsegs, Clean_absPath _ hall]

theorem cleanStep_rooted_proper (out : List Str) (c : Str) (hc : '/' ∉ c)
    (hout : ∀ x ∈ out, properName x = true) :
    ∀ x ∈ cleanStep true out c, properName x = true := by
  unfold cleanStep
  split
  · exact hout
  · rename_i h1
    split
    · rename_i h2
      cases out with
      | nil => simp
      | cons top rest =>
        have htop : top ≠ ['.', '.'] :=
          ((properName_iff top).mp (hout top (List.mem_cons_self _ _))).2.2.2
        simp only [htop, if_false]
        exact fun x hx => hout x (List.mem_cons_of_mem _ hx)
    · rename_i h2
      intro x hx
      rcases List.mem_cons.mp hx with rfl | hx
      · rw [properName_iff]
        exact ⟨fun h => h1 (Or.inl h), hc, fun h => h1 (Or.inr h), h2⟩
      · exact hout x hx

theorem foldl_cleanStep_rooted_proper (xs : List Str) :
    ∀ acc : List Str, (∀ c ∈ xs, '/' ∉ c) → (∀ x ∈ acc, properName x = true) →
      ∀ x ∈ xs.foldl (cleanStep true) acc, properName x = true := by
  induction xs with
  | nil => intro acc _ hacc; exact hacc
  | cons c t ih =>
    intro acc hxs hacc
    rw [List.foldl_cons]
    exact ih _ (fun x hx => hxs x (List.mem_cons_of_mem _ hx))
      (cleanStep_rooted_proper acc c (hxs c (List.mem_cons_self _ _)) hacc)

theorem Clean_rooted (p : Str) (h : p.head? = some '/') :
    ∃ segs, (∀ c ∈ segs, properName c = true) ∧ Clean p = absPath segs := by
  have hne : p ≠ [] := by
    intro hp
    rw [hp] at h
    simp at h
  refine ⟨((splitSlash p).foldl (cleanStep true) []).reverse, ?_, ?_⟩
  · intro c hc
    exact foldl_cleanStep_rooted_proper (splitSlash p) [] (mem_splitSlash p) (by simp) c
      (List.mem_reverse.mp hc)
  · simp [Clean, hne, h, absPath]

theorem Abs_rooted (getwd : Except Str Str) (source : Str)
    (h : source.head? = some '/' ∨ ∃ wd, getwd = .ok wd ∧ wd.head? = some '/') :
    ∃ segs, (∀ c ∈ segs, properName c = true) ∧ Abs getwd source = absPath segs := by
  by_cases hs : source.head? = some '/'
  · simp only [Abs, hs, if_true]
    exact Clean_rooted source hs
  · rcases h with h | ⟨wd, hwd, hr⟩
    · exact absurd h hs
    · simp only [Abs, hs, if_false, hwd]
      refine Clean_rooted _ ?_
      cases wd with
      | nil => simp at hr
      | cons x t => simpa using hr

theorem intercalate_eq_nil (segs : List Str) (h : ∀ c ∈ segs, c ≠ [])
    (he : ['/'].intercalate segs = []) : segs = [] := by
  cases segs with
  | nil => rfl
  | cons c rest =>
    exfalso
    have hc : c ≠ [] := h c (List.mem_cons_self _ _)
    cases rest with
    | nil =>
      rw [intercalate_singleton] at he
      exact hc he
    | cons d rest =>
      rw [intercalate_cons_cons] at he
      exact hc (List.append_eq_nil.mp he).1

theorem absPath_injective (a b : List Str) (ha : ∀ c ∈ a, properName c = true)
    (hb : ∀ c ∈ b, properName c = true) (h : absPath a = absPath b) : a = b := by
  have hi : ['/'].intercalate a = ['/'].intercalate b := List.cons_injective h
  have hane : ∀ c ∈ a, c ≠ [] := fun c hc => ((properName_iff c).mp (ha c hc)).1
  have hbne : ∀ c ∈ b, c ≠ [] := fun c hc => ((properName_iff c).mp (hb c hc)).1
  have has : ∀ c ∈ a, '/' ∉ c := fun c hc => ((properName_iff c).mp (ha c hc)).2.1
  have hbs : ∀ c ∈ b, '/' ∉ c := fun c hc => ((properName_iff c).mp (hb c hc)).2.1
  by_cases hae : a = []
  · subst hae
    exact (intercalate_eq_nil b hbne hi.symm).symm
  · by_cases hbe : b = []
    · subst hbe
      exact intercalate_eq_nil a hane hi
    · rw [← splitSlash_intercalate a hae has, ← splitSlash_intercalate b hbe hbs, hi]

/-! ## The walk -/

theorem entriesNamesOk_cons {name : Str} {child : Node} {rest : List (Str × Node)}
    (h : entriesNamesOk ((name, child) :: rest) = true) :
    properName name = true ∧ (∀ e ∈ rest, e.1 ≠ name) ∧ namesOk child = true ∧
      entriesNamesOk rest = true := by
  simp only [entriesNamesOk, Bool.and_eq_true, decide_eq_true_eq] at h
  obtain ⟨⟨⟨h1, h2⟩, h3⟩, h4⟩ := h
  exact ⟨h1, fun e he hn => h2 (hn ▸ List.mem_map_of_mem Prod.fst he), h3, h4⟩

theorem entriesNamesOk_mem {entries : List (Str × Node)} (h : entriesNamesOk entries = true) :
    ∀ name child, (name, child) ∈ entries → properName name = true ∧ namesOk child = true := by
  induction entries with
  | nil => simp
  | cons e rest ih =>
    obtain ⟨name1, child1⟩ := e
    obtain ⟨h1, -, h3, h4⟩ := entriesNamesOk_cons h
    intro name child hm
    rcases List.mem_cons.mp hm with heq | hm
    · obtain ⟨rfl, rfl⟩ := Prod.mk.inj heq
      exact ⟨h1, h3⟩
    · exact ih h4 name child hm

theorem entryAt_absPath {p q : Str} {node n : Node} (h : EntryAt p node q n) :
    ∀ segs : List Str, p = absPath segs → (∀ c ∈ segs, properName c = true) →
      namesOk node = true →
      ∃ rest : List Str, (∀ c ∈ rest, properName c = true) ∧ q = absPath (segs ++ rest) := by
  induction h with
  | here path node =>
    intro segs hp _ _
    exact ⟨[], by simp, by simpa using hp⟩
  | inside path readErr entries name child q n hm _ ih =>
    intro segs hp hsegs hnames
    simp only [namesOk] at hnames
    obtain ⟨hname, hchild⟩ := entriesNamesOk_mem hnames name child hm
    have hall : ∀ c ∈ segs ++ [name], properName c = true := by
      intro c hc
      rcases List.mem_append.mp hc with hc | hc
      · exact hsegs c hc
      · rw [List.mem_singleton.mp hc]; exact hname
    obtain ⟨rest, hrest, hq⟩ :=
      ih (segs ++ [name]) (by rw [hp, Join_absPath segs name hsegs hname]) hall hchild
    refine ⟨name :: rest, ?_, by simpa using hq⟩
    intro c hc
    rcases List.mem_cons.mp hc with rfl | hc
    · exact hname
    · exact hrest c hc

theorem entryAt_leaf {p q : Str} {n : Node} (h : EntryAt p .leaf q n) : q = p ∧ n = .leaf := by
  cases h
  exact ⟨rfl, rfl⟩

theorem entryAt_dir_leaf {p q : Str} {readErr : Option Str} {entries : List (Str × Node)} :
    EntryAt p (.dir readErr entries) q .leaf ↔
      ∃ name child, (name, child) ∈ entries ∧ EntryAt (Join p name) child q .leaf := by
  constructor
  · intro h
    cases h with
    | inside _ _ _ name child _ _ hm hc => exact ⟨name, child, hm, hc⟩
  · rintro ⟨name, child, hm, hc⟩
    exact EntryAt.inside p readErr entries name child q .leaf hm hc

theorem walkFn_of_stat (w : World) (acc : List Str) (path : Str) (err : Option Str)
    (m : FileMode) (hs : w.stat path = .ok m) :
    walkFn w acc path err = .ok (if m = .dir then acc else acc ++ [path]) ∧
      (isDirectory w path = .ok false ↔ m ≠ .dir) := by
  cases m <;> simp [walkFn, isDirectory, hs]

mutual
theorem walk_spec (w : World) :
    ∀ (node : Node) (acc : List Str) (segs : List Str),
      (∀ c ∈ segs, properName c = true) →
      statsOk w (absPath segs) node = true → namesOk node = true → listable node = true →
      ∃ out, walk w acc (absPath segs) node = .ok (acc ++ out) ∧ out.Nodup ∧
        ∀ q, q ∈ out ↔ EntryAt (absPath segs) node q .leaf ∧ isDirectory w q = .ok false
  | .leaf, acc, segs, _, hst, _, _ => by
    simp only [statsOk] at hst
    cases hs : w.stat (absPath segs) with
    | error e => simp [hs] at hst
    | ok m =>
      obtain ⟨hw, hd⟩ := walkFn_of_stat w acc (absPath segs) none m hs
      by_cases hm : m = .dir
      · refine ⟨[], by simp [walk, hw, hm], List.nodup_nil, ?_⟩
        intro q
        constructor
        · simp
        · rintro ⟨he, hq⟩
          obtain ⟨rfl, -⟩ := entryAt_leaf he
          exact absurd hm (hd.mp hq)
      · refine ⟨[absPath segs], by simp [walk, hw, hm], List.nodup_singleton _, ?_⟩
        intro q
        constructor
        · intro hq
          obtain rfl := List.mem_singleton.mp hq
          exact ⟨EntryAt.here _ _, hd.mpr hm⟩
        · rintro ⟨he, -⟩
          obtain ⟨rfl, -⟩ := entryAt_leaf he
          exact List.mem_singleton_self _
  | .dir readErr entries, acc, segs, hsegs, hst, hn, hl => by
    simp only [statsOk] at hst
    simp only [listable, Bool.and_eq_true, Option.isNone_iff_eq_none] at hl
    obtain ⟨hread, hl⟩ := hl
    subst hread
    cases hs : w.stat (absPath segs) with
    | error e => simp [hs] at hst
    | ok m =>
      cases m with
      | regular => simp [hs] at hst
      | other => simp [hs] at hst
      | dir =>
        simp only [hs] at hst
        simp only [namesOk] at hn
        obtain ⟨out, hw, hnd, hmem⟩ := walkEntries_spec w entries acc segs hsegs hst hn hl
        obtain ⟨hf, -⟩ := walkFn_of_stat w acc (absPath segs) none .dir hs
        refine ⟨out, by simp [walk, hf, hw], hnd, ?_⟩
        intro q
        rw [hmem, entryAt_dir_leaf]
        constructor
        · rintro ⟨name, child, h1, h2, h3⟩
          exact ⟨⟨name, child, h1, h2⟩, h3⟩
        · rintro ⟨⟨name, child, h1, h2⟩, h3⟩
          exact ⟨name, child, h1, h2, h3⟩
theorem walkEntries_spec (w : World) :
    ∀ (entries : List (Str × Node)) (acc : List Str) (segs : List Str),
      (∀ c ∈ segs, properName c = true) →
      entriesStatsOk w (absPath segs) entries = true → entriesNamesOk entries = true →
      entriesListable entries = true →
      ∃ out, walkEntries w acc (absPath segs) entries = .ok (acc ++ out) ∧ out.Nodup ∧
        ∀ q, q ∈ out ↔ ∃ name child, (name, child) ∈ entries ∧
          EntryAt (Join (absPath segs) name) child q .leaf ∧ isDirectory w q = .ok false
  | [], acc, segs, _, _, _, _ => ⟨[], by simp [walkEntries], List.nodup_nil, by simp⟩
  | (name, child) :: rest, acc, segs, hsegs, hst, hn, hl => by
    simp only [entriesStatsOk, Bool.and_eq_true] at hst
    simp only [entriesListable, Bool.and_eq_true] at hl
    have hall := entriesNamesOk_mem hn
    obtain ⟨hname, hfresh, hchild, hrest⟩ := entriesNamesOk_cons hn
    have hjoin := Join_absPath segs name hsegs hname
    have hsegs1 : ∀ c ∈ segs ++ [name], properName c = true := by
      intro c hc
      rcases List.mem_append.mp hc with hc | hc
      · exact hsegs c hc
      · rw [List.mem_singleton.mp hc]; exact hname
    obtain ⟨out1, hw1, hnd1, hmem1⟩ :=
      walk_spec w child acc (segs ++ [name]) hsegs1 (hjoin ▸ hst.1) hchild hl.1
    obtain ⟨out2, hw2, hnd2, hmem2⟩ :=
      walkEntries_spec w rest (acc ++ out1) segs hsegs hst.2 hrest hl.2
    refine ⟨out1 ++ out2, by simp [walkEntries, hjoin, hw1, hw2], ?_, ?_⟩
    · refine List.Nodup.append hnd1 hnd2 ?_
      intro q hq1 hq2
      obtain ⟨he1, -⟩ := (hmem1 q).mp hq1
      obtain ⟨name2, child2, hm2, he2, -⟩ := (hmem2 q).mp hq2
      obtain ⟨hname2, hchild2⟩ := hall name2 child2 (List.mem_cons_of_mem _ hm2)
      have hsegs2 : ∀ c ∈ segs ++ [name2], properName c = true := by
        intro c hc
        rcases List.mem_append.mp hc with hc | hc
        · exact hsegs c hc
        · rw [List.mem_singleton.mp hc]; exact hname2
      obtain ⟨r1, hr1, hq1⟩ := entryAt_absPath he1 (segs ++ [name]) rfl hsegs1 hchild
      obtain ⟨r2, hr2, hq2⟩ := entryAt_absPath he2 (segs ++ [name2])
        (Join_absPath segs name2 hsegs hname2) hsegs2 hchild2
      have hp1 : ∀ c ∈ (segs ++ [name]) ++ r1, properName c = true := by
        intro c hc
        rcases List.mem_append.mp hc with hc | hc
        · exact hsegs1 c hc
        · exact hr1 c hc
      have hp2 : ∀ c ∈ (segs ++ [name2]) ++ r2, properName c = true := by
        intro c hc
        rcases List.mem_append.mp hc with hc | hc
        · exact hsegs2 c hc
        · exact hr2 c hc
      have heq := absPath_injective _ _ hp1 hp2 (hq1.symm.trans hq2)
      simp only [List.append_assoc, List.singleton_append] at heq
      have hnn : name = name2 := (List.cons.inj (List.append_cancel_left heq)).1
      exact hfresh (name2, child2) hm2 hnn.symm
    · intro q
      rw [← hjoin] at hmem1
      simp only [List.mem_append, hmem1, hmem2, List.mem_cons, Prod.mk.injEq]
      constructor
      · rintro (⟨h1, h2⟩ | ⟨name2, child2, h1, h2, h3⟩)
        · exact ⟨name, child, Or.inl ⟨rfl, rfl⟩, h1, h2⟩
        · exact ⟨name2, child2, Or.inr h1, h2, h3⟩
      · rintro ⟨name2, child2, (⟨rfl, rfl⟩ | h1), h2, h3⟩
        · exact Or.inl ⟨h2, h3⟩
        · exact Or.inr ⟨name2, child2, h1, h2, h3⟩
end

theorem entriesStatsOk_mem {w : World} {path : Str} {entries : List (Str × Node)}
    (h : entriesStatsOk w path entries = true) :
    ∀ name child, (name, child) ∈ entries → statsOk w (Join path name) child = true := by
  induction entries with
  | nil => simp
  | cons e rest ih =>
    obtain ⟨name1, child1⟩ := e
    simp only [entriesStatsOk, Bool.and_eq_true] at h
    intro name child hm
    rcases List.mem_cons.mp hm with heq | hm
    · obtain ⟨rfl, rfl⟩ := Prod.mk.inj heq
      exact h.1
    · exact ih h.2 name child hm

theorem statsOk_dir {w : World} {path : Str} {readErr : Option Str}
    {entries : List (Str × Node)} (h : statsOk w path (.dir readErr entries) = true) :
    w.stat path = .ok .dir ∧ entriesStatsOk w path entries = true := by
  simp only [statsOk] at h
  cases hs : w.stat path with
  | error e => simp [hs] at h
  | ok m =>
    cases m with
    | regular => simp [hs] at h
    | other => simp [hs] at h
    | dir =>
      simp only [hs] at h
      exact ⟨rfl, h⟩

theorem stat_dir_of_entryAt {w : World} {path q : Str} {node n : Node}
    (he : EntryAt path node q n) :
    statsOk w path node = true → ∀ readErr entries, n = .dir readErr entries →
      w.stat q = .ok .dir := by
  induction he with
  | here path node =>
    intro h readErr entries hn
    subst hn
    exact (statsOk_dir h).1
  | inside path readErr entries name child q n hm _ ih =>
    intro h re es hn
    exact ih (entriesStatsOk_mem (statsOk_dir h).2 name child hm) re es hn

/-- Where the walked root is an absolute path, every `os.Stat` succeeds, the
names are names of directory entries and every directory can be read, the walk
of `uploadDirToS3` returns a file list (the list the scheduler starts from when
`make` succeeds), every non-directory entry of the tree that `os.Stat` reports
as a regular file occurs in it exactly once, no directory of the tree (the root
included) occurs in it, and every path in it is a non-directory entry of the
tree that `os.Stat` does not report as a directory. -/
theorem walk_lists_regular_files (w : World) (tree : Node) (payload : s3payload)
    (hroot : payload.source.head? = some '/' ∨
      ∃ wd, w.getwd = .ok wd ∧ wd.head? = some '/')
    (hstat : statsOk w (Abs w.getwd payload.source) tree = true)
    (hnames : namesOk tree = true) (hlist : listable tree = true) :
    ∃ files, walk w [] (Abs w.getwd payload.source) tree = .ok files ∧
      (0 ≤ payload.concurrency → payload.concurrency ≤ w.maxChan →
        uploadDirToS3 w tree payload = .ok (init files)) ∧
      (∀ q, EntryAt (Abs w.getwd payload.source) tree q .leaf → w.stat q = .ok .regular →
        files.count q = 1) ∧
      (∀ q readErr entries,
        EntryAt (Abs w.getwd payload.source) tree q (.dir readErr entries) → q ∉ files) ∧
      (∀ q ∈ files, EntryAt (Abs w.getwd payload.source) tree q .leaf ∧
        w.stat q ≠ .ok .dir) := by
  obtain ⟨segs, hsegs, habs⟩ := Abs_rooted w.getwd payload.source hroot
  rw [habs] at hstat ⊢
  obtain ⟨out, hw, hnd, hmem⟩ := walk_spec w tree [] segs hsegs hstat hnames hlist
  rw [List.nil_append] at hw
  have hnotdir : ∀ q, isDirectory w q = .ok false → w.stat q ≠ .ok .dir := by
    intro q hq hs
    simp [isDirectory, hs] at hq
  refine ⟨out, hw, ?_, ?_, ?_, ?_⟩
  · intro hc hmax
    have hcond : ¬ (payload.concurrency < 0 ∨ (w.maxChan : Int) < payload.concurrency) := by
      omega
    simp [uploadDirToS3, habs, hw, hcond]
  · intro q he hs
    have hq : q ∈ out := (hmem q).mpr ⟨he, by simp [isDirectory, hs]⟩
    exact count_eq_one_of_nodup hnd hq
  · intro q readErr entries he hq
    have hs := stat_dir_of_entryAt he hstat readErr entries rfl
    exact hnotdir q ((hmem q).mp hq).2 hs
  · intro q hq
    exact ⟨((hmem q).mp hq).1, hnotdir q ((hmem q).mp hq).2⟩

theorem walk_lists_regular_files_demo :
    walk demoWorld [] (Abs demoWorld.getwd "/data".toList) demoTree
        = .ok ["/data/a.txt".toList, "/data/sub/b.txt".toList] ∧
      ∃ files, walk demoWorld [] (Abs demoWorld.getwd "/data".toList) demoTree = .ok files ∧
        (∀ q, EntryAt (Abs demoWorld.getwd "/data".toList) demoTree q .leaf →
          demoWorld.stat q = .ok .regular → files.count q = 1) :=
  ⟨rfl,
    (walk_lists_regular_files demoWorld demoTree (demoPayload "/data".toList "x".toList 2)
      (Or.inl rfl) rfl (by decide) (by decide)).imp (fun _ h => ⟨h.1, h.2.2.1⟩)⟩

/-- C4 fails on the code: in the tree of `/data` with the file `a.txt` and the
directory `secret`, which holds the regular file `f.txt` and cannot be read,
every `os.Stat` succeeds, yet the walk of `uploadDirToS3` ends without an error
in the file list `/data/a.txt` alone, the scheduler starts from that list, and
`/data/secret/f.txt` does not occur in it. -/
theorem unreadable_directory_is_skipped :
    statsOk secretWorld (Abs secretWorld.getwd "/data".toList) secretTree = true ∧
      namesOk secretTree = true ∧
      EntryAt (Abs secretWorld.getwd "/data".toList) secretTree
        "/data/secret/f.txt".toList .leaf ∧
      secretWorld.stat "/data/secret/f.txt".toList = .ok .regular ∧
      walk secretWorld [] (Abs secretWorld.getwd "/data".toList) secretTree
        = .ok ["/data/a.txt".toList] ∧
      uploadDirToS3 secretWorld secretTree (demoPayload "/data".toList "x".toList 2)
        = .ok (init ["/data/a.txt".toList]) ∧
      List.count "/data/secret/f.txt".toList ["/data/a.txt".toList] = 0 :=
  ⟨rfl, by decide,
    EntryAt.inside _ none _ "secret".toList
      (.dir (some "permission denied".toList) [("f.txt".toList, .leaf)]) _ _
      (List.mem_cons_of_mem _ (List.mem_cons_self _ _))
      (EntryAt.inside _ _ _ "f.txt".toList .leaf _ _ (List.mem_cons_self _ _)
        (EntryAt.here _ _)),
    rfl, rfl, rfl, by decide⟩

end Upload3r
